import Mathlib

/-!
Verification of `parse_flamegraph.py` (flame-graph reconstruction and
hotspot-reporting engine).  All strings are modelled as `List Char`;
Python floats that carry exact decimal data (sample percentages) are
modelled as `Rat`; Python ints as `Nat`/`Int`.
-/

/-- Convert a Lean string literal to the `List Char` representation used
throughout this development. -/
def chars (s : String) : List Char := s.data

/-- Whitespace predicate used for Python `\s` / `str.strip()` on the ASCII
range that flamegraph SVGs contain. -/
def isSpace (c : Char) : Bool :=
  c = ' ' || c = '\t' || c = '\n' || c = '\r' || c = '\x0b' || c = '\x0c'

/-! ## `demangle_name` (lines 77-96)

`re.sub(r'<[^<>]*>', '', s)` removes every non-overlapping occurrence of a
`<`, a run of non-angle-bracket characters, and a `>`; the scan restarts one
character later when a `<` is not closed before the next angle bracket.
`stripTemplatesSM` is that single left-to-right pass as a state machine: the
state `some acc` means a `<` has been read and `acc` (reversed) holds the
non-angle characters read since; an unclosed group is emitted verbatim. -/
def stripTemplatesSM : Option (List Char) → List Char → List Char
  | none, [] => []
  | some acc, [] => '<' :: acc.reverse
  | none, c :: rest =>
      if c = '<' then stripTemplatesSM (some []) rest
      else c :: stripTemplatesSM none rest
  | some acc, c :: rest =>
      if c = '>' then stripTemplatesSM none rest
      else if c = '<' then '<' :: acc.reverse ++ stripTemplatesSM (some []) rest
      else stripTemplatesSM (some (c :: acc)) rest

/-- One pass of `re.sub(r'<[^<>]*>', '', s)`. -/
def stripTemplates (s : List Char) : List Char := stripTemplatesSM none s

/-- The `while prev != result` loop of `demangle_name`, with enough fuel to
reach the fixed point (each productive pass strictly shortens the string, so
`length + 1` passes always suffice; the fixed-point property is proved
below). -/
def removeTemplatesLoop : Nat → List Char → List Char
  | 0, s => s
  | n + 1, s =>
      let t := stripTemplates s
      if t = s then s else removeTemplatesLoop n t

/-- The template-removal loop of `demangle_name`. -/
def removeTemplates (s : List Char) : List Char :=
  removeTemplatesLoop (s.length + 1) s

/-- Is the first character whitespace? -/
def headSpace : List Char → Bool
  | [] => false
  | c :: _ => isSpace c

/-- `re.sub(r'\s+', ' ', s)`: every maximal whitespace run becomes a single
space (all but the last character of a run are skipped, the last emits
`' '`). -/
def collapseWS : List Char → List Char
  | [] => []
  | c :: rest =>
      if isSpace c then
        if headSpace rest then collapseWS rest else ' ' :: collapseWS rest
      else c :: collapseWS rest

/-- Python `str.strip()`. -/
def pyStrip (s : List Char) : List Char :=
  (((s.dropWhile isSpace).reverse).dropWhile isSpace).reverse

/-- `demangle_name` (lines 77-96): repeatedly strip innermost template
groups, collapse whitespace, and strip. -/
def demangle_name (s : List Char) : List Char :=
  pyStrip (collapseWS (removeTemplates s))

/-! ## `extract_module` / `extract_crate` (lines 99-116) -/

/-- Python `name.split('::')`: split at every non-overlapping occurrence of
the two-character separator, scanning left to right. -/
def splitColons : List Char → List Char → List (List Char)
  | acc, [] => [acc.reverse]
  | acc, [c] => [(c :: acc).reverse]
  | acc, c :: d :: rest =>
      if c = ':' ∧ d = ':' then acc.reverse :: splitColons [] rest
      else splitColons (c :: acc) (d :: rest)

/-- `extract_module` (lines 99-106): the label minus its last `::`
component, or the whole label when there is no separator. -/
def extract_module (name : List Char) : List Char :=
  let parts := splitColons [] name
  if parts.length > 1 then List.intercalate (chars "::") parts.dropLast else name

/-- `extract_crate` (lines 109-116): the first `::` component. -/
def extract_crate (name : List Char) : List Char :=
  match splitColons [] name with
  | p :: _ => p
  | [] => name

/-! ## `group_entries` (lines 119-148) -/

/-- Key selection inside the `group_entries` loop (lines 131-140):
optionally demangle, then pick the component of the label named by the
grouping mode. -/
def groupKey (group_by : List Char) (demangle : Bool) (func_name : List Char) :
    List Char :=
  let n := if demangle then demangle_name func_name else func_name
  if group_by = chars "module" then extract_module n
  else if group_by = chars "crate" then extract_crate n
  else n

/-- One `groups[key] = (samples + s, max(pct, p))` step on the
insertion-ordered association list modelling the Python dict; a missing key
starts from the `defaultdict` value `(0, 0.0)`. -/
def groupUpsert (k : List Char) (s : Nat) (p : Rat) :
    List (List Char × Nat × Rat) → List (List Char × Nat × Rat)
  | [] => [(k, 0 + s, max 0 p)]
  | (k', s', p') :: rest =>
      if k' = k then (k', s' + s, max p' p) :: rest
      else (k', s', p') :: groupUpsert k s p rest

/-- `group_entries` (lines 119-148). -/
def group_entries (entries : List (List Char × Nat × Rat)) (group_by : List Char)
    (demangle : Bool) : List (List Char × Nat × Rat) :=
  entries.foldl
    (fun acc e => groupUpsert (groupKey group_by demangle e.1) e.2.1 e.2.2 acc) []

/-! ## Stable sorting (Python `sorted` / `list.sort` are stable) -/

/-- Insert `e` before the first element it must strictly precede; ties keep
their original order. -/
def stableInsert (lt : α → α → Bool) (e : α) : List α → List α
  | [] => [e]
  | a :: rest => if lt e a then e :: a :: rest else a :: stableInsert lt e rest

/-- Stable sort by folding `stableInsert`: `lt e a = true` means `e` must
come strictly before `a`.  Elements are processed in input order, so equal
elements retain it, matching Python's stable `sorted`. -/
def stableSort (lt : α → α → Bool) (l : List α) : List α :=
  l.foldl (fun acc e => stableInsert lt e acc) []

/-! ## Numeric rendering helpers for the formatters -/

/-- Decimal digits of `n` (Python `str` of a nonnegative int). -/
def natToChars (n : Nat) : List Char := Nat.toDigits 10 n

/-- Insert thousands separators into a digit string (Python `f"{n:,}"`). -/
def commaAux : List Char → List Char
  | [] => []
  | c :: rest =>
      c :: (if rest.length % 3 = 0 ∧ rest ≠ [] then ',' :: commaAux rest
            else commaAux rest)

/-- Python `f"{n:,}"`. -/
def natComma (n : Nat) : List Char := commaAux (natToChars n)

/-- Character replication, Python `c * n`. -/
def repChar (c : Char) (n : Nat) : List Char := List.replicate n c

/-- Right-justify to width `w` (format specifier `:>{w}`). -/
def rjust (w : Nat) (s : List Char) : List Char := repChar ' ' (w - s.length) ++ s

/-- Round `n / d` (`d > 0`) half to even, the rounding used by Python float
formatting, on exact integer data. -/
def roundHalfEven (n : Int) (d : Nat) : Int :=
  let f : Int := Int.fdiv n d
  let rem : Int := n - f * d
  if 2 * rem < (d : Int) then f
  else if (d : Int) < 2 * rem then f + 1
  else if f % 2 = 0 then f else f + 1

/-- Zero-pad on the left to width `k`. -/
def padZeros (k : Nat) (s : List Char) : List Char := repChar '0' (k - s.length) ++ s

/-- Python `f"{q:.kf}"` fixed-point formatting on the exact rational. -/
def ratFixed (k : Nat) (q : Rat) : List Char :=
  let m : Int := roundHalfEven (q.num * ((10 ^ k : Nat) : Int)) q.den
  let a := m.natAbs
  let ip := a / 10 ^ k
  let fp := a % 10 ^ k
  (if m < 0 then ['-'] else []) ++ natToChars ip ++
    (if k = 0 then [] else '.' :: padZeros k (natToChars fp))

/-! ## `parse_title` (lines 25-50)

The anchored pattern `^(.+?)\s+\(([0-9,]+)\s+samples?,\s+([0-9.]+)%\)$` is
matched against the stripped title.  At every boundary inside the tail the
adjacent character classes are disjoint, so the backtracking engine behaves
exactly as maximal munch; the lazy `(.+?)` makes the name boundary the first
position from which the tail matches (`.` never matches a newline). -/

/-- The `[0-9,]` class. -/
def isDigitComma (c : Char) : Bool := c.isDigit || c = ','

/-- The `[0-9.]` class. -/
def isDigitDot (c : Char) : Bool := c.isDigit || c = '.'

/-- Match `\s+\(([0-9,]+)\s+samples?,\s+([0-9.]+)%\)$` against `cs`,
returning the two captured groups. -/
def matchTail (cs : List Char) : Option (List Char × List Char) :=
  if cs.takeWhile isSpace = [] then none else
  match cs.dropWhile isSpace with
  | '(' :: r1 =>
    let digits := r1.takeWhile isDigitComma
    if digits = [] then none else
    let r2 := r1.dropWhile isDigitComma
    if r2.takeWhile isSpace = [] then none else
    match r2.dropWhile isSpace with
    | 's' :: 'a' :: 'm' :: 'p' :: 'l' :: 'e' :: r3 =>
      let r4 := match r3 with
        | 's' :: r => r
        | r => r
      match r4 with
      | ',' :: r5 =>
        if r5.takeWhile isSpace = [] then none else
        let r6 := r5.dropWhile isSpace
        let pct := r6.takeWhile isDigitDot
        if pct = [] then none else
        match r6.dropWhile isDigitDot with
        | '%' :: ')' :: [] => some (digits, pct)
        | _ => none
      | _ => none
    | _ => none
  | _ => none

/-- Lazy `(.+?)` scan: grow the name one (non-newline) character at a time
until the tail pattern matches the remainder. -/
def findSplit : List Char → List Char → Option (List Char × List Char × List Char)
  | nameRev, [] =>
      match matchTail [] with
      | some (d, p) => some (nameRev.reverse, d, p)
      | none => none
  | nameRev, c :: rest =>
      match matchTail (c :: rest) with
      | some (d, p) => some (nameRev.reverse, d, p)
      | none => if c = '\n' then none else findSplit (c :: nameRev) rest

/-- Value of a digit string. -/
def digitsToNat (ds : List Char) : Nat :=
  ds.foldl (fun a c => 10 * a + (c.toNat - '0'.toNat)) 0

/-- Python `int` on a string already known to be digits-only (possible
failure: empty string, as after removing every `,` from `","`). -/
def pyIntOfDigits (ds : List Char) : Option Nat :=
  if ds = [] ∨ ¬ ds.all Char.isDigit then none else some (digitsToNat ds)

/-- Python `float` on a `[0-9.]+` string: at most one dot, at least one
digit; yields the exact decimal value. -/
def pyDecimal (ds : List Char) : Option Rat :=
  if ¬ ds.all isDigitDot then none else
  match (ds.filter (fun c => c = '.')).length with
  | 0 => if ds = [] then none else some (mkRat (digitsToNat ds) 1)
  | 1 =>
    let a := ds.takeWhile (fun c => c ≠ '.')
    let b := (ds.dropWhile (fun c => c ≠ '.')).tail
    if a = [] ∧ b = [] then none
    else some (mkRat (digitsToNat a * 10 ^ b.length + digitsToNat b) (10 ^ b.length))
  | _ => none

/-- `parse_title` (lines 25-50): strip, match the pattern, convert the
numeric groups; any failure yields `none`. -/
def parse_title (title_content : List Char) : Option (List Char × Nat × Rat) :=
  match pyStrip title_content with
  | [] => none
  | c :: rest =>
    if c = '\n' then none else
    match findSplit [c] rest with
    | none => none
    | some (name, d, p) =>
      match pyIntOfDigits (d.filter (fun x => x ≠ ',')), pyDecimal p with
      | some n, some q => some (name, n, q)
      | _, _ => none

/-! ## `extract_titles_from_svg` (lines 53-74) -/

/-- Decode the HTML entities `html.unescape` resolves that occur in
flamegraph SVG titles (the claims settled here do not depend on the rest of
the entity table). -/
def unescapeHtml : List Char → List Char
  | '&' :: 'l' :: 't' :: ';' :: r => '<' :: unescapeHtml r
  | '&' :: 'g' :: 't' :: ';' :: r => '>' :: unescapeHtml r
  | '&' :: 'a' :: 'm' :: 'p' :: ';' :: r => '&' :: unescapeHtml r
  | '&' :: 'q' :: 'u' :: 'o' :: 't' :: ';' :: r => '"' :: unescapeHtml r
  | '&' :: 'a' :: 'p' :: 'o' :: 's' :: ';' :: r => '\'' :: unescapeHtml r
  | '&' :: '#' :: '3' :: '9' :: ';' :: r => '\'' :: unescapeHtml r
  | c :: r => c :: unescapeHtml r
  | [] => []

/-- `re.findall(r'<title>([^<]+)</title>', content)`: scan left to right;
on a failed candidate restart one character later, on success continue
after the closing tag.  Each step consumes at least one character, so
`length + 1` fuel always suffices. -/
def findTitlesF : Nat → List Char → List (List Char)
  | 0, _ => []
  | fuel + 1, cs =>
    if (chars "<title>").isPrefixOf cs then
      let r := cs.drop 7
      let inner := r.takeWhile (fun c => c ≠ '<')
      let r2 := r.dropWhile (fun c => c ≠ '<')
      if inner ≠ [] ∧ (chars "</title>").isPrefixOf r2 then
        inner :: findTitlesF fuel (r2.drop 8)
      else
        match cs with
        | [] => []
        | _ :: t => findTitlesF fuel t
    else
      match cs with
      | [] => []
      | _ :: t => findTitlesF fuel t

/-- All title captures of the document. -/
def findTitles (cs : List Char) : List (List Char) := findTitlesF (cs.length + 1) cs

/-- `extract_titles_from_svg` (lines 53-74), over the already-read file
content: unescape each title and keep the successfully parsed ones. -/
def extract_titles_from_svg (content : List Char) : List (List Char × Nat × Rat) :=
  (findTitles content).filterMap (fun t => parse_title (unescapeHtml t))

/-! ## `extract_stacks_from_svg`: reconstruction phase (lines 201-249) -/

/-- A geometry-bearing frame record `(name, samples, pct, x, w, y)` parsed
from one `<g>` element (line 170). -/
structure Frame where
  name : List Char
  samples : Nat
  pct : Rat
  x : Int
  w : Int
  y : Int
deriving DecidableEq

/-- The sort of line 206: ascending `x`, then descending `y` (`sort` is
stable). -/
def sortFrames (frames : List Frame) : List Frame :=
  stableSort (fun e a => decide (e.x < a.x ∨ (e.x = a.x ∧ a.y < e.y))) frames

/-- Frames of one depth level, in `frames_data` order (the `by_y` buckets of
lines 215-217). -/
def levelFrames (frames : List Frame) (ly : Int) : List Frame :=
  (sortFrames frames).filter (fun g => decide (g.y = ly))

/-- The distinct `y` values in ascending order (`y_levels`, line 219). -/
def yLevels (frames : List Frame) : List Int :=
  stableSort (fun e a => decide (e < a)) ((sortFrames frames).map Frame.y).dedup

/-- The ancestor scan of lines 233-243 for one frame: at every level above
`fy` append the first frame whose horizontal range contains
`[curX, curX + curW]`.  The source initialises `current_x`/`current_w` from
the frame being reconstructed and never reassigns them; they are threaded
here exactly as in the code. -/
def scanLevels (byY : Int → List Frame) (fy curX curW : Int) :
    List Int → List (List Char) → List (List Char)
  | [], stack => stack
  | ly :: rest, stack =>
      if ly ≤ fy then scanLevels byY fy curX curW rest stack
      else
        match (byY ly).find? (fun c => decide (c.x ≤ curX ∧ curX + curW ≤ c.x + c.w)) with
        | some c => scanLevels byY fy curX curW rest (stack ++ [c.name])
        | none => scanLevels byY fy curX curW rest stack

/-- Reconstruct one frame's stack (lines 224-247): scan the levels above,
then reverse the leaf-to-root chain. -/
def buildStack (byY : Int → List Frame) (levels : List Int) (f : Frame) :
    List (List Char) :=
  (scanLevels byY f.y f.x f.w levels [f.name]).reverse

/-- The reconstruction phase of `extract_stacks_from_svg` (lines 201-249)
over the parsed frame records: one stack per frame, in sorted-frame
order. -/
def reconstructStacks (frames : List Frame) : List (List (List Char) × Nat × Rat) :=
  if frames = [] then [] else
  (sortFrames frames).map
    (fun f => (buildStack (levelFrames frames) (yLevels frames) f, f.samples, f.pct))

/-- The scan as claim C1 states it: after a match, continue the containment
test from the matched ancestor's own accumulated range. -/
def scanLevelsAccum (byY : Int → List Frame) (fy : Int) :
    Int → Int → List Int → List (List Char) → List (List Char)
  | _, _, [], stack => stack
  | curX, curW, ly :: rest, stack =>
      if ly ≤ fy then scanLevelsAccum byY fy curX curW rest stack
      else
        match (byY ly).find? (fun c => decide (c.x ≤ curX ∧ curX + curW ≤ c.x + c.w)) with
        | some c => scanLevelsAccum byY fy c.x c.w rest (stack ++ [c.name])
        | none => scanLevelsAccum byY fy curX curW rest stack

/-- `reconstructStacks` under the accumulated-range reading of claim C1. -/
def reconstructStacksAccum (frames : List Frame) :
    List (List (List Char) × Nat × Rat) :=
  if frames = [] then [] else
  (sortFrames frames).map
    (fun f => ((scanLevelsAccum (levelFrames frames) f.y f.x f.w (yLevels frames)
                  [f.name]).reverse, f.samples, f.pct))

/-- The scan stated without the dead `current_*` threading: the containment
test at every level uses the original frame's own range. -/
def scanLevelsOrig (byY : Int → List Frame) (f : Frame) :
    List Int → List (List Char) → List (List Char)
  | [], stack => stack
  | ly :: rest, stack =>
      if ly ≤ f.y then scanLevelsOrig byY f rest stack
      else
        match (byY ly).find? (fun c => decide (c.x ≤ f.x ∧ f.x + f.w ≤ c.x + c.w)) with
        | some c => scanLevelsOrig byY f rest (stack ++ [c.name])
        | none => scanLevelsOrig byY f rest stack

/-! ## `build_stack_tree` (lines 252-301) -/

/-- Aggregation tree node: `children` models the Python dict keyed by the
(equal) child names, in insertion order. -/
inductive StackTree where
  | mk (name : List Char) (self_samples : Nat) (total_samples : Nat)
       (children : List StackTree)

/-- Node name. -/
def StackTree.name : StackTree → List Char
  | .mk n _ _ _ => n

/-- Samples attributed to this node as a terminal frame. -/
def StackTree.self_samples : StackTree → Nat
  | .mk _ s _ _ => s

/-- Samples of every stack passing through this node. -/
def StackTree.total_samples : StackTree → Nat
  | .mk _ _ t _ => t

/-- The child nodes. -/
def StackTree.children : StackTree → List StackTree
  | .mk _ _ _ c => c

/-- Replace the like-named child in place, or append a new one: the Python
dict update `node['children'][frame] = ...` with insertion order kept. -/
def setChild : List StackTree → StackTree → List StackTree
  | [], c => [c]
  | a :: rest, c => if a.name = c.name then c :: rest else a :: setChild rest c

/-- The `node['children'][frame]` read (lines 284-292): the existing child
of that name, or the fresh zeroed node the code inserts. -/
def getChild (cs : List StackTree) (frame : List Char) : StackTree :=
  match cs.find? (fun c => decide (c.name = frame)) with
  | some c => c
  | none => .mk frame 0 0 []

/-- `child['total_samples'] += s` (line 293). -/
def bumpTotal (t : StackTree) (s : Nat) : StackTree :=
  .mk t.name t.self_samples (t.total_samples + s) t.children

/-- `child['self_samples'] += s` (line 297). -/
def bumpSelf (t : StackTree) (s : Nat) : StackTree :=
  .mk t.name (t.self_samples + s) t.total_samples t.children

/-- Fold one stack into the tree (loop of lines 283-299): walk/create a
child per frame, add the stack's samples to `total_samples` of every node
visited, and to `self_samples` of the terminal node only. -/
def addStack : StackTree → List (List Char) → Nat → StackTree
  | node, [], _ => node
  | node, frame :: rest, s =>
      let child1 := bumpTotal (getChild node.children frame) s
      let child2 := if rest = [] then bumpSelf child1 s else child1
      StackTree.mk node.name node.self_samples node.total_samples
        (setChild node.children (addStack child2 rest s))

/-- `build_stack_tree` (lines 252-301). -/
def build_stack_tree (sts : List (List (List Char) × Nat × Rat))
    (demangle : Bool) : StackTree :=
  sts.foldl
    (fun root e =>
      let frames := if demangle then e.1.map demangle_name else e.1
      addStack
        (StackTree.mk root.name root.self_samples (root.total_samples + e.2.1)
          root.children)
        frames e.2.1)
    (.mk (chars "root") 0 0 [])

mutual
/-- Does every node of the tree satisfy `self_samples ≤ total_samples`? -/
def treeOk : StackTree → Bool
  | .mk _ slf tot cs => decide (slf ≤ tot) && forestOk cs
/-- `treeOk` on every tree of the list. -/
def forestOk : List StackTree → Bool
  | [] => true
  | t :: ts => treeOk t && forestOk ts
end

/-! ## `find_leaf_stacks` (lines 304-333) -/

/-- Leaf test of lines 323-329: no stack in the set is a strictly longer
extension of this one.  Iterating the Python set `stack_set` only tests
membership, so iterating the originating list is equivalent. -/
def isLeafIn (all : List (List (List Char) × Nat × Rat))
    (frames : List (List Char)) : Bool :=
  all.all (fun o =>
    !(decide (frames.length < o.1.length) && decide (o.1.take frames.length = frames)))

/-- `find_leaf_stacks` (lines 304-333): stable-sort by frame-count
descending, keep those that are not proper prefixes of another stack. -/
def find_leaf_stacks (sts : List (List (List Char) × Nat × Rat)) :
    List (List (List Char) × Nat × Rat) :=
  (stableSort (fun e a => decide (a.1.length < e.1.length)) sts).filter
    (fun e => isLeafIn sts e.1)

/-! ## `format_hottest_stacks` (lines 336-407) -/

/-- Indentation `"  " * min(depth, 4)` (lines 381, 393, 399). -/
def indentOf (depth : Nat) : List Char :=
  (List.replicate (min depth 4) (chars "  ")).flatten

/-- Head-portion frame lines (lines 392-394): indentation plus the frame,
never the leaf arrow; `i` is the enumeration index. -/
def renderHead : Nat → List (List Char) → List (List Char)
  | _, [] => []
  | i, f :: rest => (indentOf i ++ f) :: renderHead (i + 1) rest

/-- Frame lines with the terminal-leaf arrow at index `total - 1`
(lines 380-385 and 398-403); `i` is the enumeration start. -/
def renderTail (total : Nat) : Nat → List (List Char) → List (List Char)
  | _, [] => []
  | i, f :: rest =>
      (if i = total - 1 then indentOf i ++ chars "→ " ++ f else indentOf i ++ f) ::
        renderTail total (i + 1) rest

/-- The `"... (N frames omitted) ..."` marker line (line 396). -/
def omitLine (n : Nat) : List Char :=
  chars "    ... (" ++ natToChars n ++ chars " frames omitted) ..."

/-- The frame-trace lines for one stack (lines 379-403): full render, or
head portion, omitted marker, and tail portion when the stack exceeds
`max_frames`. -/
def renderFrames (frames : List (List Char)) (max_frames : Nat) :
    List (List Char) :=
  if max_frames = 0 ∨ frames.length ≤ max_frames then
    renderTail frames.length 0 frames
  else
    let head_count := max_frames / 3
    let tail_count := max_frames - head_count
    renderHead 0 (frames.take head_count) ++
      omitLine (frames.length - head_count - tail_count) ::
        renderTail frames.length (frames.length - tail_count)
          (frames.drop (frames.length - tail_count))

/-- One numbered stack block (lines 374-405): header line, dashed rule, the
frame lines, and a blank line. -/
def stackBlock (i : Nat) (frames : List (List Char)) (samples : Nat) (pct : Rat)
    (max_frames : Nat) : List (List Char) :=
  (chars "#" ++ natToChars i ++ chars ": " ++ natComma samples ++
      chars " samples (" ++ ratFixed 2 pct ++ chars "%)") ::
    repChar '-' 40 ::
    renderFrames frames max_frames ++ [[]]

/-- The numbered blocks for the filtered stacks, `i` starting at 1
(line 370), demangling per stack (lines 371-372). -/
def stackBlocks (demangle : Bool) (max_frames : Nat) :
    Nat → List (List (List Char) × Nat × Rat) → List (List Char)
  | _, [] => []
  | i, (frames, samples, pct) :: rest =>
      let fs := if demangle then frames.map demangle_name else frames
      stackBlock i fs samples pct max_frames ++
        stackBlocks demangle max_frames (i + 1) rest

/-- `format_hottest_stacks` (lines 336-407), as its list of output lines:
leaf stacks only, sorted descending by samples, threshold-filtered, top-N,
then one block per stack. -/
def format_hottest_stacks_lines (sts : List (List (List Char) × Nat × Rat))
    (top_n : Nat) (min_percent : Rat) (demangle : Bool) (max_frames : Nat) :
    List (List Char) :=
  let leaf := find_leaf_stacks sts
  let sorted := stableSort (fun e a => decide (a.2.1 < e.2.1)) leaf
  let filtered := (sorted.filter (fun e => decide (min_percent ≤ e.2.2))).take top_n
  if filtered = [] then [chars "No stacks found matching criteria."]
  else
    repChar '=' 80 :: chars "HOTTEST STACK TRACES (leaf frames only)" ::
      repChar '=' 80 :: [] :: stackBlocks demangle max_frames 1 filtered

/-- `format_hottest_stacks` joined with newlines (line 407). -/
def format_hottest_stacks (sts : List (List (List Char) × Nat × Rat))
    (top_n : Nat) (min_percent : Rat) (demangle : Bool) (max_frames : Nat) :
    List Char :=
  List.intercalate ['\n']
    (format_hottest_stacks_lines sts top_n min_percent demangle max_frames)

/-! ## `format_stack_tree` (lines 410-476) -/

/-- Percentage of the global total (lines 442-443): the exact rational
`n / total * 100`, or 0 when the total is 0. -/
def pctOf (total : Nat) (n : Nat) : Rat :=
  if 0 < total then mkRat (n * 100) total else 0

/-- Truncate a name longer than 60 characters to 57 plus `"..."`
(lines 457-460). -/
def truncName (name : List Char) : List Char :=
  if 60 < name.length then name.take 57 ++ chars "..." else name

/-- The two lines emitted per shown child (lines 448-463): the (truncated)
name, then the sample/percentage line with the self-time annotation when
`self_samples > 0` and the self percentage is at least 0.1. -/
def entryLines (total : Nat) (child : StackTree) (depth : Nat) :
    List (List Char) :=
  let pct := pctOf total child.total_samples
  let self_pct := pctOf total child.self_samples
  let self_info :=
    if 0 < child.self_samples ∧ mkRat 1 10 ≤ self_pct then
      chars " [self: " ++ natComma child.self_samples ++ chars " (" ++
        ratFixed 1 self_pct ++ chars "%)]"
    else []
  let indent := (List.replicate depth (chars "  ")).flatten
  [indent ++ truncName child.name,
   indent ++ chars "  └─ " ++ natComma child.total_samples ++ chars " samples (" ++
     ratFixed 1 pct ++ chars "%)" ++ self_info]

/-- `format_node` (lines 429-468): return at once when `shown` has reached
`top_n * 3`; otherwise loop over the children sorted descending by
`total_samples`, skipping below-threshold children and emitting two lines,
one entry count, and a depth-first recursion per remaining child.  The loop
itself never re-checks the cap.  Every recursive call increases `shown` by
at least one and the guard stops at `top_n * 3`, so recursion depth is
bounded by the cap and fuel `top_n * 3 + 1` (supplied by
`format_stack_tree_lines`) reproduces the unbounded Python recursion
exactly. -/
def formatNodeF (top_n : Nat) (min_percent : Rat) (total : Nat) :
    Nat → StackTree → Nat → Nat → List (List Char) × Nat
  | 0, _, _, shown => ([], shown)
  | fuel + 1, node, depth, shown =>
      if top_n * 3 ≤ shown then ([], shown)
      else
        (stableSort (fun e a => decide (a.total_samples < e.total_samples))
          node.children).foldl
          (fun acc child =>
            if pctOf total child.total_samples < min_percent then acc
            else
              let sub := formatNodeF top_n min_percent total fuel child (depth + 1)
                (acc.2 + 1)
              (acc.1 ++ entryLines total child depth ++ sub.1, sub.2))
          ([], shown)

/-- The uncapped depth-first render stated by the specification (4.7):
children sorted descending by `total_samples`, below-threshold children
pruned, two lines per entry, no output cap. -/
def specTreeRender (min_percent : Rat) (total : Nat) :
    Nat → StackTree → Nat → List (List Char)
  | 0, _, _ => []
  | fuel + 1, node, depth =>
      (stableSort (fun e a => decide (a.total_samples < e.total_samples))
        node.children).foldl
        (fun acc child =>
          if pctOf total child.total_samples < min_percent then acc
          else acc ++ (entryLines total child depth ++
            specTreeRender min_percent total fuel child (depth + 1)))
        []

/-- Number of entries of the uncapped render. -/
def specTreeCount (min_percent : Rat) (total : Nat) : Nat → StackTree → Nat
  | 0, _ => 0
  | fuel + 1, node =>
      (stableSort (fun e a => decide (a.total_samples < e.total_samples))
        node.children).foldl
        (fun acc child =>
          if pctOf total child.total_samples < min_percent then acc
          else acc + (1 + specTreeCount min_percent total fuel child))
        0

/-- `format_stack_tree` (lines 410-476), as its list of output lines:
header, rendered body, and the removal of a trailing empty line
(lines 473-474). -/
def format_stack_tree_lines (tree : StackTree) (top_n : Nat) (min_percent : Rat)
    (total_samples : Nat) : List (List Char) :=
  let header := [repChar '=' 80, chars "STACK TREE (hottest paths)",
    repChar '=' 80, [], chars "Total samples: " ++ natComma total_samples, []]
  let body := (formatNodeF top_n min_percent total_samples (top_n * 3 + 1) tree 0 0).1
  let all := header ++ body
  if all.getLast? = some [] then all.dropLast else all

/-- `format_stack_tree` joined with newlines (line 476). -/
def format_stack_tree (tree : StackTree) (top_n : Nat) (min_percent : Rat)
    (total_samples : Nat) : List Char :=
  List.intercalate ['\n'] (format_stack_tree_lines tree top_n min_percent total_samples)

/-! ## `format_output` (lines 479-520) -/

/-- `format_output` (lines 479-520), as its list of output lines: threshold
filter, sort by samples or percent, top-N, column widths from the widest
shown sample count. -/
def format_output_lines (grouped : List (List Char × Nat × Rat)) (top_n : Nat)
    (min_percent : Rat) (sort_by : List Char) : List (List Char) :=
  let filtered := grouped.filter (fun e => decide (min_percent ≤ e.2.2))
  let sorted :=
    if sort_by = chars "samples" then
      stableSort (fun e a => decide (a.2.1 < e.2.1)) filtered
    else stableSort (fun e a => decide (a.2.2 < e.2.2)) filtered
  let top := sorted.take top_n
  if top = [] then [chars "No entries found matching criteria."]
  else
    let max_samples := (top.map (fun e => e.2.1)).foldl max 0
    let w := (natComma max_samples).length
    (rjust w (chars "Samples") ++ chars "  " ++ rjust 6 (chars "%") ++
        chars "  Function/Path") ::
      repChar '-' (w + 2 + 6 + 2 + 50) ::
      top.map (fun e =>
        rjust w (natComma e.2.1) ++ chars "  " ++ rjust 5 (ratFixed 2 e.2.2) ++
          chars "%  " ++ e.1)

/-- `format_output` joined with newlines (line 520). -/
def format_output (grouped : List (List Char × Nat × Rat)) (top_n : Nat)
    (min_percent : Rat) (sort_by : List Char) : List Char :=
  List.intercalate ['\n'] (format_output_lines grouped top_n min_percent sort_by)

/-! ## `extract_stacks_from_svg`: markup scanning (lines 160-199)

The scanning regex pairs each `<g>` element's title with the `y`, `fg:x`
and `fg:w` attributes of its following `<rect>`; every lazy `.*?` segment
between literals jumps to the nearest next occurrence, which is how the
helpers below scan. -/

/-- First-occurrence split: `some (before, after)` where `after` starts just
past the first occurrence of `pat`. -/
def splitAtSub (pat : List Char) : List Char → Option (List Char × List Char)
  | [] => if pat = [] then some ([], []) else none
  | c :: rest =>
      if pat.isPrefixOf (c :: rest) then some ([], (c :: rest).drop pat.length)
      else
        match splitAtSub pat rest with
        | some (a, b) => some (c :: a, b)
        | none => none

/-- Scan a rect tag body for `\sy="([^"]+)"`. -/
def findYAttr : List Char → Option (List Char)
  | [] => none
  | c :: rest =>
      if isSpace c ∧ (chars "y=\"").isPrefixOf rest then
        let v := (rest.drop 3).takeWhile (fun d => d ≠ '"')
        if v ≠ [] ∧ ((rest.drop 3).dropWhile (fun d => d ≠ '"')).head? = some '"' then
          some v
        else none
      else findYAttr rest

/-- Scan a rect tag body for `nm` followed by `([^"]+)"`, returning the
value and the remainder after the closing quote. -/
def findAttr (nm : List Char) : List Char → Option (List Char × List Char)
  | [] => none
  | c :: rest =>
      if nm.isPrefixOf (c :: rest) then
        let v := ((c :: rest).drop nm.length).takeWhile (fun d => d ≠ '"')
        let r := ((c :: rest).drop nm.length).dropWhile (fun d => d ≠ '"')
        if v ≠ [] ∧ r.head? = some '"' then some (v, r.tail)
        else none
      else findAttr nm rest

/-- Python `int(str)`: optional surrounding whitespace and sign, then a
nonempty digit run. -/
def pyIntStr (s : List Char) : Option Int :=
  match pyStrip s with
  | '-' :: ds =>
      if ds ≠ [] ∧ ds.all Char.isDigit then some (-(digitsToNat ds : Int)) else none
  | '+' :: ds =>
      if ds ≠ [] ∧ ds.all Char.isDigit then some ((digitsToNat ds : Int)) else none
  | ds => if ds ≠ [] ∧ ds.all Char.isDigit then some ((digitsToNat ds : Int)) else none

/-- `int(float(y_str))` (line 195): decimal parse, then truncation toward
zero.  The `y` attributes of flamegraph SVGs are nonnegative decimal
literals, which is the grammar `pyDecimal` models for `float`. -/
def pyYInt (s : List Char) : Option Int :=
  match pyDecimal (pyStrip s) with
  | some q => some (if 0 ≤ q then q.floor else q.ceil)
  | none => none

/-- Parse one `<g ...>` candidate (the scanning regex of lines 165-168 plus
the conversions of lines 179-199): `none` when a structural piece is
missing, `some (none, resume)` when the title or a numeric field fails to
convert (the element is skipped), `some (some frame, resume)` on success.
`resume` is where the scan continues (after the rect tag). -/
def parseGBlock (cs : List Char) : Option (Option Frame × List Char) :=
  match splitAtSub (chars ">") cs with
  | none => none
  | some (_, afterG) =>
    match splitAtSub (chars "<title>") afterG with
    | none => none
    | some (_, r1) =>
      let inner := r1.takeWhile (fun c => c ≠ '<')
      let r2 := r1.dropWhile (fun c => c ≠ '<')
      if inner = [] ∨ ¬ (chars "</title>").isPrefixOf r2 then none
      else
        match splitAtSub (chars "<rect") (r2.drop 8) with
        | none => none
        | some (_, r3) =>
          let tag := r3.takeWhile (fun c => c ≠ '>')
          let resume := (r3.dropWhile (fun c => c ≠ '>')).tail
          match findYAttr tag with
          | none => none
          | some ystr =>
            match findAttr (chars "fg:x=\"") tag with
            | none => none
            | some (xstr, _) =>
              match findAttr (chars "fg:w=\"") tag with
              | none => none
              | some (wstr, _) =>
                match parse_title (unescapeHtml inner) with
                | none => some (none, resume)
                | some (nm, samples, pct) =>
                  match pyIntStr xstr, pyIntStr wstr, pyYInt ystr with
                  | some x, some w, some y =>
                      some (some ⟨nm, samples, pct, x, w, y⟩, resume)
                  | _, _, _ => some (none, resume)

/-- The `finditer` scan over the document (lines 172-199): on a structural
mismatch restart one character later, otherwise continue after the match.
Each step consumes at least one character, so `length + 1` fuel always
suffices. -/
def svgScanF : Nat → List Char → List Frame
  | 0, _ => []
  | fuel + 1, cs =>
    match cs with
    | [] => []
    | _ :: t =>
      if (chars "<g").isPrefixOf cs then
        match parseGBlock cs with
        | some (some fr, resume) => fr :: svgScanF fuel resume
        | some (none, resume) => svgScanF fuel resume
        | none => svgScanF fuel t
      else svgScanF fuel t

/-- All geometry-bearing frame records of the document. -/
def svgFrames (content : List Char) : List Frame :=
  svgScanF (content.length + 1) content

/-- `extract_stacks_from_svg` (lines 151-249) over the file content. -/
def extract_stacks_from_svg (content : List Char) :
    List (List (List Char) × Nat × Rat) :=
  reconstructStacks (svgFrames content)

/-! ## `main` (lines 523-627) -/

/-- The CLI options, with the argparse defaults of lines 531-575.
`show_stacks` / `show_tree` are the `--stacks` / `--tree` flags. -/
structure Args where
  svg_file : List Char
  top : Nat := 50
  min_percent : Rat := 0
  group_by : List Char := chars "function"
  demangle : Bool := false
  sort_by : List Char := chars "samples"
  show_stacks : Bool := false
  show_tree : Bool := false
  max_frames : Nat := 0

/-- Outcome of one `main` run: exit code, stderr messages, and stdout
writes (one element per Python `print` call). -/
structure CliResult where
  exitCode : Nat
  stderrLines : List (List Char)
  stdoutLines : List (List Char)
deriving DecidableEq

/-- The missing-file message (line 582). -/
def msgFileNotFound (path : List Char) : List Char :=
  chars "Error: File not found: " ++ path

/-- The empty-extraction message (line 589). -/
def msgNoData : List Char := chars "No flamegraph data found in the SVG file."

/-- `main` (lines 579-623) over an abstracted filesystem: `none` models an
input file that does not exist or cannot be opened. -/
def run_main (file : Option (List Char)) (args : Args) : CliResult :=
  match file with
  | none => ⟨1, [msgFileNotFound args.svg_file], []⟩
  | some content =>
    let entries := extract_titles_from_svg content
    if entries = [] then ⟨1, [msgNoData], []⟩
    else
      let total := (entries.map (fun e => e.2.1)).sum
      let headerOut := [chars "Parsed " ++ natToChars entries.length ++
          chars " stack frames",
        chars "Total samples: " ++ natComma total, []]
      let grouped := format_output (group_entries entries args.group_by args.demangle)
        args.top args.min_percent args.sort_by
      if args.show_stacks ∨ args.show_tree then
        let sts := extract_stacks_from_svg content
        let out1 := if args.show_stacks then
            [format_hottest_stacks sts args.top args.min_percent args.demangle
              args.max_frames, []]
          else []
        let out2 := if args.show_tree then
            [format_stack_tree (build_stack_tree sts args.demangle) args.top
              args.min_percent total, []]
          else []
        let out3 := if args.show_stacks then [] else [grouped]
        ⟨0, [], headerOut ++ out1 ++ out2 ++ out3⟩
      else ⟨0, [], headerOut ++ [grouped]⟩


/-! ## Auxiliary definitions used by the claim statements -/

/-- Association-list lookup matching the equality used by `groupUpsert`. -/
def lookupKey (k : List Char) : List (List Char × Nat × Rat) → Option (Nat × Rat)
  | [] => none
  | (k', v) :: rest => if k' = k then some v else lookupKey k rest

/-- The running `(sum, max)` state of the key `k` through the
`group_entries` fold. -/
def groupStep (b : Option (Nat × Rat)) (e : List Char × Nat × Rat) :
    Option (Nat × Rat) :=
  some ((b.getD (0, 0)).1 + e.2.1, max (b.getD (0, 0)).2 e.2.2)

/-- The angle-bracket characters of a string, in order. -/
def angles (t : List Char) : List Char := t.filter (fun c => c = '<' || c = '>')

/-- Does the list contain a `<` immediately followed by a `>`?  On
`angles t` this detects exactly a removable template group of `t`. -/
def badAdj : List Char → Bool
  | [] => false
  | [_] => false
  | a :: b :: rest => (decide (a = '<') && decide (b = '>')) || badAdj (b :: rest)

/-- The canonical tail of a well-formed annotation:
a space, `(`, the count group, one space, the literal word `samples`, a
comma, one space, the percent group, and `%)`. -/
def canonicalTail (cnt pct : List Char) : List Char :=
  ' ' :: '(' :: (cnt ++ ' ' :: 's' :: 'a' :: 'm' :: 'p' :: 'l' :: 'e' :: 's' ::
    ',' :: ' ' :: (pct ++ '%' :: ')' :: []))

/-- A well-formed annotation string, spelled from the claim:
the name followed by the canonical tail. -/
def canonicalTitle (name cnt pct : List Char) : List Char :=
  name ++ canonicalTail cnt pct

/-- The exact decimal value of a `[0-9.]` percent group: the digits as an
integer over ten to the number of fraction digits. -/
def decimalValue (ds : List Char) : Rat :=
  mkRat (digitsToNat (ds.filter (fun c => c ≠ '.')))
    (10 ^ ((ds.dropWhile (fun c => c ≠ '.')).tail).length)

/-! # Claim theorems -/

/-- If the separator does not occur in `rest`, the split is one piece. -/
theorem splitColons_no_sep : ∀ (rest acc : List Char),
    ¬ (chars "::") <:+: rest → splitColons acc rest = [acc.reverse ++ rest]
  | [], acc, _ => by simp [splitColons]
  | [c], acc, _ => by simp [splitColons]
  | c :: d :: rest, acc, h => by
    have hcd : ¬ (c = ':' ∧ d = ':') := by
      rintro ⟨rfl, rfl⟩
      exact h ⟨[], rest, by simp [chars]⟩
    have hrec : ¬ (chars "::") <:+: (d :: rest) := fun hi =>
      h (hi.trans (List.suffix_cons c (d :: rest)).isInfix)
    rw [splitColons, if_neg hcd, splitColons_no_sep (d :: rest) (c :: acc) hrec]
    simp


/-- `extract_module` is the identity on separator-free labels. -/
theorem extract_module_no_sep (name : List Char)
    (h : ¬ (chars "::") <:+: name) : extract_module name = name := by
  unfold extract_module
  rw [splitColons_no_sep name [] h]
  simp

/-- C10: for every label containing no `::` separator, the enclosing-scope
(module) grouping key equals the full label itself, so separator-free
labels group identically under the `function` and `module` modes. -/
theorem C10_module_key_no_separator (name : List Char)
    (h : ¬ (chars "::") <:+: name) :
    extract_module name = name ∧
      groupKey (chars "module") false name = groupKey (chars "function") false name := by
  have hm := extract_module_no_sep name h
  refine ⟨hm, ?_⟩
  unfold groupKey
  simp only [Bool.false_eq_true, if_false, eq_self_iff_true, if_true]
  rw [if_neg (by decide), if_neg (by decide), hm]

/-- Witness for C10 at the separator-free label `"foo"`. -/
theorem C10_module_key_no_separator_witness :
    extract_module (chars "foo") = chars "foo" ∧
      groupKey (chars "module") false (chars "foo") =
        groupKey (chars "function") false (chars "foo") :=
  C10_module_key_no_separator (chars "foo") (by decide)

/-! ## C5: grouping sums samples and maximises percent -/

/-- Looking up the updated key returns the `defaultdict` update of the old
value. -/
theorem lookupKey_groupUpsert_self (k : List Char) (s : Nat) (p : Rat) :
    ∀ acc, lookupKey k (groupUpsert k s p acc) =
      some (((lookupKey k acc).getD (0, 0)).1 + s,
            max ((lookupKey k acc).getD (0, 0)).2 p)
  | [] => by simp [groupUpsert, lookupKey]
  | (k', v) :: rest => by
    by_cases h : k' = k
    · subst h
      simp [groupUpsert, lookupKey]
    · simp only [groupUpsert, lookupKey, if_neg h]
      exact lookupKey_groupUpsert_self k s p rest

/-- Updating a different key leaves the lookup unchanged. -/
theorem lookupKey_groupUpsert_other (k k' : List Char) (s : Nat) (p : Rat)
    (h : k' ≠ k) :
    ∀ acc, lookupKey k (groupUpsert k' s p acc) = lookupKey k acc
  | [] => by simp [groupUpsert, lookupKey, h]
  | (k'', v) :: rest => by
    by_cases h2 : k'' = k'
    · subst h2
      simp [groupUpsert, lookupKey, h]
    · simp only [groupUpsert, lookupKey, if_neg h2]
      by_cases h3 : k'' = k
      · simp [if_pos h3]
      · simp only [if_neg h3]
        exact lookupKey_groupUpsert_other k k' s p h rest

/-- The `group_entries` fold, viewed through the lookup of one key, is the
fold of `groupStep` over that key's contributors. -/
theorem lookupKey_group_fold (gb : List Char) (dm : Bool) (k : List Char) :
    ∀ (entries acc : List (List Char × Nat × Rat)),
      lookupKey k (entries.foldl
        (fun a e => groupUpsert (groupKey gb dm e.1) e.2.1 e.2.2 a) acc) =
      (entries.filter (fun e => decide (groupKey gb dm e.1 = k))).foldl groupStep
        (lookupKey k acc)
  | [], acc => by simp
  | e :: rest, acc => by
    rw [List.foldl_cons, List.filter_cons]
    by_cases h : groupKey gb dm e.1 = k
    · rw [if_pos (by simp [h]), List.foldl_cons,
        lookupKey_group_fold gb dm k rest]
      congr 1
      rw [h, lookupKey_groupUpsert_self]
      rfl
    · rw [if_neg (by simp [h]), lookupKey_group_fold gb dm k rest]
      congr 1
      exact lookupKey_groupUpsert_other k _ _ _ h acc

/-- Folding `groupStep` from a known `(sum, max)` state adds the sample sum
and maximises the percents. -/
theorem groupStep_fold_some :
    ∀ (l : List (List Char × Nat × Rat)) (S : Nat) (M : Rat),
      l.foldl groupStep (some (S, M)) =
        some (S + (l.map (fun e => e.2.1)).sum,
          (l.map (fun e => e.2.2)).foldl max M)
  | [], S, M => by simp
  | e :: rest, S, M => by
    simp only [List.foldl_cons, List.map_cons, List.sum_cons]
    rw [show groupStep (some (S, M)) e =
        some (S + e.2.1, max M e.2.2) from rfl]
    rw [groupStep_fold_some rest]
    congr 1
    rw [Prod.mk.injEq]
    constructor
    · omega
    · rfl

/-- A fold of `max` over a list stays above its seed. -/
theorem foldl_max_le_self : ∀ (l : List Rat) (M : Rat), M ≤ l.foldl max M
  | [], M => le_refl M
  | p :: rest, M => le_trans (le_max_left M p) (foldl_max_le_self rest (max M p))

/-- A fold of `max` dominates every element. -/
theorem le_foldl_max : ∀ (l : List Rat) (M : Rat) (p : Rat), p ∈ l → p ≤ l.foldl max M
  | [], _, _, h => absurd h (List.not_mem_nil _)
  | q :: rest, M, p, h => by
    rcases List.mem_cons.mp h with rfl | h2
    · exact le_trans (le_max_right M p) (foldl_max_le_self rest (max M p))
    · exact le_foldl_max rest (max M q) p h2

/-- A fold of `max` is its seed or one of the elements. -/
theorem foldl_max_mem : ∀ (l : List Rat) (M : Rat),
    l.foldl max M = M ∨ l.foldl max M ∈ l
  | [], M => Or.inl rfl
  | q :: rest, M => by
    rcases foldl_max_mem rest (max M q) with h | h
    · rcases max_choice M q with h2 | h2 <;> rw [List.foldl_cons, h, h2]
      · exact Or.inl rfl
      · exact Or.inr (List.mem_cons_self q rest)
    · exact Or.inr (List.mem_cons_of_mem q h)

/-- C5: for every flat entry list, grouping mode, and demangle flag,
`group_entries` holds, per group key, exactly the sum of the contributing
entries' samples and the maximum of their percent values (the `defaultdict`
seeds the running maximum with 0, so percents are required nonnegative,
which the extraction stage guarantees); keys without contributors are
absent. -/
theorem C5_grouping_sum_and_max (entries : List (List Char × Nat × Rat))
    (gb : List Char) (dm : Bool) (k : List Char)
    (hpos : ∀ e ∈ entries, (0:Rat) ≤ e.2.2) :
    ((entries.filter (fun e => decide (groupKey gb dm e.1 = k))) = [] →
      lookupKey k (group_entries entries gb dm) = none) ∧
    ((entries.filter (fun e => decide (groupKey gb dm e.1 = k))) ≠ [] →
      ∃ M, lookupKey k (group_entries entries gb dm) =
          some (((entries.filter (fun e => decide (groupKey gb dm e.1 = k))).map
              (fun e => e.2.1)).sum, M) ∧
        M ∈ (entries.filter (fun e => decide (groupKey gb dm e.1 = k))).map
            (fun e => e.2.2) ∧
        ∀ p ∈ (entries.filter (fun e => decide (groupKey gb dm e.1 = k))).map
            (fun e => e.2.2), p ≤ M) := by
  have h0 : group_entries entries gb dm =
      entries.foldl (fun a e => groupUpsert (groupKey gb dm e.1) e.2.1 e.2.2 a) [] := rfl
  have hfold := lookupKey_group_fold gb dm k entries []
  rw [show lookupKey k ([] : List (List Char × Nat × Rat)) = none from rfl] at hfold
  constructor
  · intro hnil
    rw [h0, hfold, hnil]
    rfl
  · intro hne
    obtain ⟨e0, tl, htl⟩ := List.exists_cons_of_ne_nil hne
    have he0 : e0 ∈ entries.filter (fun e => decide (groupKey gb dm e.1 = k)) := by
      rw [htl]; exact List.mem_cons_self e0 tl
    have hp0 : (0:Rat) ≤ e0.2.2 := hpos e0 (List.mem_of_mem_filter he0)
    have hstep : groupStep none e0 = some (0 + e0.2.1, e0.2.2) := by
      show some (0 + e0.2.1, max 0 e0.2.2) = _
      rw [max_eq_right hp0]
    refine ⟨(tl.map (fun e => e.2.2)).foldl max e0.2.2, ?_, ?_, ?_⟩
    · rw [h0, hfold, htl, List.foldl_cons, hstep, groupStep_fold_some]
      simp only [List.map_cons, List.sum_cons]
      congr 2
      omega
    · rw [htl, List.map_cons]
      rcases foldl_max_mem (tl.map (fun e => e.2.2)) e0.2.2 with h | h
      · rw [h]; exact List.mem_cons_self _ _
      · exact List.mem_cons_of_mem _ h
    · intro p hp
      rw [htl, List.map_cons] at hp
      rcases List.mem_cons.mp hp with rfl | h
      · exact foldl_max_le_self _ _
      · exact le_foldl_max _ _ _ h

/-- Witness for C5: two same-key entries with 100 and 50 samples and
percents 60 and 40 yield the sum 150 and the larger percent 60, never the
average or the sum of the percents. -/
theorem C5_grouping_sum_and_max_witness :
    (∃ M, lookupKey (chars "f")
        (group_entries [(chars "f", 100, 60), (chars "f", 50, 40)]
          (chars "function") false) =
        some (150, M) ∧
      M ∈ [(60 : Rat), 40] ∧ ∀ p ∈ [(60 : Rat), 40], p ≤ M) ∧
    lookupKey (chars "f")
        (group_entries [(chars "f", 100, 60), (chars "f", 50, 40)]
          (chars "function") false) = some (150, 60) := by
  constructor
  · have h := (C5_grouping_sum_and_max
      [(chars "f", 100, 60), (chars "f", 50, 40)] (chars "function") false
      (chars "f") (by decide)).2 (by decide)
    obtain ⟨M, h1, h2, h3⟩ := h
    have hlist : ([(chars "f", 100, (60:Rat)), (chars "f", 50, 40)].filter
        (fun e => decide (groupKey (chars "function") false e.1 = chars "f"))).map
        (fun e => e.2.2) = [(60:Rat), 40] := by decide
    rw [hlist] at h2 h3
    have hsum : ([(chars "f", 100, (60:Rat)), (chars "f", 50, 40)].filter
        (fun e => decide (groupKey (chars "function") false e.1 = chars "f"))).map
        (fun e => e.2.1) = [100, 50] := by decide
    rw [hsum] at h1
    exact ⟨M, by simpa using h1, h2, h3⟩
  · decide

/-! ## C4: leaf selection -/

/-- `stableInsert` permutes to a cons. -/
theorem stableInsert_perm (lt : α → α → Bool) (e : α) :
    ∀ l, (stableInsert lt e l).Perm (e :: l)
  | [] => List.Perm.refl _
  | a :: rest => by
    unfold stableInsert
    by_cases h : lt e a
    · rw [if_pos h]
    · rw [if_neg h]
      exact ((stableInsert_perm lt e rest).cons a).trans (List.Perm.swap e a rest)

/-- `stableSort` is a permutation of its input. -/
theorem stableSort_perm (lt : α → α → Bool) (l : List α) :
    (stableSort lt l).Perm l := by
  suffices h : ∀ (l acc : List α),
      (l.foldl (fun acc e => stableInsert lt e acc) acc).Perm (l ++ acc) by
    simpa using h l []
  intro l
  induction l with
  | nil => intro acc; simp
  | cons e rest ih =>
    intro acc
    rw [List.foldl_cons]
    refine (ih (stableInsert lt e acc)).trans ?_
    refine (List.Perm.append_left rest (stableInsert_perm lt e acc)).trans ?_
    exact List.perm_middle

/-- The longer-extension test of the code is the strict-prefix relation of
the specification. -/
theorem strict_ext_iff (frames o : List (List Char)) :
    (frames.length < o.length ∧ o.take frames.length = frames) ↔
      (frames <+: o ∧ frames ≠ o) := by
  constructor
  · rintro ⟨hlen, htake⟩
    have hpre : frames <+: o := htake ▸ List.take_prefix frames.length o
    refine ⟨hpre, fun he => ?_⟩
    rw [he] at hlen
    exact lt_irrefl _ hlen
  · rintro ⟨hpre, hne⟩
    have hle := hpre.length_le
    have htake : o.take frames.length = frames := (List.prefix_iff_eq_take.mp hpre).symm
    refine ⟨?_, htake⟩
    rcases Nat.lt_or_ge frames.length o.length with h | h
    · exact h
    · exact absurd (hpre.eq_of_length (le_antisymm hle h)) hne

/-- The boolean leaf test says: no other stack strictly extends this one. -/
theorem leaf_pred_iff (sts : List (List (List Char) × Nat × Rat))
    (frames : List (List Char)) :
    isLeafIn sts frames = true ↔ ¬ ∃ o ∈ sts, frames <+: o.1 ∧ frames ≠ o.1 := by
  unfold isLeafIn
  rw [List.all_eq_true]
  push_neg
  constructor
  · intro h o ho hpre
    have h2 := h o ho
    simp only [Bool.not_eq_true', Bool.and_eq_false_iff,
      decide_eq_false_iff_not] at h2
    by_contra hne
    have hs := (strict_ext_iff frames o.1).mpr ⟨hpre, hne⟩
    rcases h2 with h2 | h2
    · exact h2 hs.1
    · exact h2 hs.2
  · intro h o ho
    simp only [Bool.not_eq_true', Bool.and_eq_false_iff, decide_eq_false_iff_not]
    by_cases hs : frames.length < o.1.length ∧ o.1.take frames.length = frames
    · have hp := (strict_ext_iff frames o.1).mp hs
      exact absurd (h o ho hp.1) hp.2
    · tauto

/-- Boolean form of `leaf_pred_iff`. -/
theorem leaf_pred_eq (sts : List (List (List Char) × Nat × Rat))
    (frames : List (List Char)) :
    isLeafIn sts frames =
      decide (¬ ∃ o ∈ sts, frames <+: o.1 ∧ frames ≠ o.1) := by
  by_cases h : ¬ ∃ o ∈ sts, frames <+: o.1 ∧ frames ≠ o.1
  · rw [decide_eq_true h, (leaf_pred_iff sts frames).mpr h]
  · rw [decide_eq_false h]
    rw [← Bool.not_eq_true]
    intro hT
    exact h ((leaf_pred_iff sts frames).mp hT)

/-- C4: leaf selection returns exactly the subset of stacks whose label
sequence is not a strict prefix of any other stack's sequence in the set
(as a multiset: the code returns it sorted by length); the two examples of
the claim evaluate accordingly. -/
theorem C4_leaf_selection (sts : List (List (List Char) × Nat × Rat)) :
    (find_leaf_stacks sts).Perm
      (sts.filter (fun e => decide (¬ ∃ o ∈ sts, e.1 <+: o.1 ∧ e.1 ≠ o.1))) ∧
    find_leaf_stacks [([chars "a", chars "b", chars "c"], 1, 0),
        ([chars "a", chars "b"], 1, 0)] =
      [([chars "a", chars "b", chars "c"], 1, 0)] ∧
    find_leaf_stacks [([chars "a", chars "b"], 1, 0),
        ([chars "a", chars "c"], 1, 0)] =
      [([chars "a", chars "b"], 1, 0), ([chars "a", chars "c"], 1, 0)] := by
  refine ⟨?_, by decide, by decide⟩
  have hcong : ∀ e ∈ stableSort (fun e a => decide (a.1.length < e.1.length)) sts,
      (fun e => isLeafIn sts e.1) e =
        (fun e => decide (¬ ∃ o ∈ sts, e.1 <+: o.1 ∧ e.1 ≠ o.1)) e :=
    fun e _ => leaf_pred_eq sts e.1
  unfold find_leaf_stacks
  rw [List.filter_congr hcong]
  exact (stableSort_perm _ sts).filter _

/-! ## C2: tree aggregation conservation -/

/-- `addStack` never changes the node's own `total_samples`. -/
theorem addStack_total : ∀ (node : StackTree) (frames : List (List Char)) (s : Nat),
    (addStack node frames s).total_samples = node.total_samples
  | _, [], _ => rfl
  | .mk _ _ _ _, _ :: _, _ => rfl

/-- The root's `total_samples` after the fold is the initial value plus the
sum of the folded stacks' samples. -/
theorem build_total_aux (dm : Bool) :
    ∀ (sts : List (List (List Char) × Nat × Rat)) (root : StackTree),
    (sts.foldl (fun root e =>
      addStack (StackTree.mk root.name root.self_samples
        (root.total_samples + e.2.1) root.children)
        (if dm then e.1.map demangle_name else e.1) e.2.1) root).total_samples
      = root.total_samples + (sts.map (fun e => e.2.1)).sum
  | [], root => by simp
  | e :: rest, root => by
    rw [List.foldl_cons, build_total_aux dm rest, addStack_total]
    simp only [StackTree.total_samples, List.map_cons, List.sum_cons]
    omega

/-- Members of an OK forest are OK trees. -/
theorem forestOk_mem : ∀ (cs : List StackTree), forestOk cs = true →
    ∀ t ∈ cs, treeOk t = true
  | [], _, t, ht => absurd ht (List.not_mem_nil t)
  | c :: rest, h, t, ht => by
    obtain ⟨h1, h2⟩ :=
      (by simpa [forestOk] using h : treeOk c = true ∧ forestOk rest = true)
    rcases List.mem_cons.mp ht with rfl | ht2
    · exact h1
    · exact forestOk_mem rest h2 t ht2

/-- `setChild` with an OK child preserves forest OK-ness. -/
theorem setChild_ok : ∀ (cs : List StackTree) (c : StackTree),
    forestOk cs = true → treeOk c = true → forestOk (setChild cs c) = true
  | [], c, _, hc => by simp [setChild, forestOk, hc]
  | a :: rest, c, h, hc => by
    obtain ⟨h1, h2⟩ :=
      (by simpa [forestOk] using h : treeOk a = true ∧ forestOk rest = true)
    unfold setChild
    by_cases hn : a.name = c.name
    · rw [if_pos hn]
      simp [forestOk, hc, h2]
    · rw [if_neg hn]
      simp [forestOk, h1, setChild_ok rest c h2 hc]

/-- The child looked up (or created) by `addStack` is OK. -/
theorem getChild_ok (cs : List StackTree) (f : List Char)
    (h : forestOk cs = true) : treeOk (getChild cs f) = true := by
  unfold getChild
  cases hf : cs.find? (fun c => decide (c.name = f)) with
  | none => simp [treeOk, forestOk]
  | some c => exact forestOk_mem cs h c (List.mem_of_find?_eq_some hf)

/-- Bumping `total_samples` preserves the invariant. -/
theorem bumpTotal_ok (t : StackTree) (s : Nat) (h : treeOk t = true) :
    treeOk (bumpTotal t s) = true := by
  cases t with
  | mk n slf tot cs =>
    simp only [treeOk, bumpTotal, StackTree.name, StackTree.self_samples,
      StackTree.total_samples, StackTree.children, Bool.and_eq_true,
      decide_eq_true_eq] at h ⊢
    exact ⟨by omega, h.2⟩

/-- Bumping both counters by the same amount preserves the invariant. -/
theorem bumpSelf_bumpTotal_ok (t : StackTree) (s : Nat) (h : treeOk t = true) :
    treeOk (bumpSelf (bumpTotal t s) s) = true := by
  cases t with
  | mk n slf tot cs =>
    simp only [treeOk, bumpSelf, bumpTotal, StackTree.name, StackTree.self_samples,
      StackTree.total_samples, StackTree.children, Bool.and_eq_true,
      decide_eq_true_eq] at h ⊢
    exact ⟨by omega, h.2⟩

/-- `addStack` preserves the `self_samples ≤ total_samples` invariant. -/
theorem addStack_ok : ∀ (node : StackTree) (frames : List (List Char)) (s : Nat),
    treeOk node = true → treeOk (addStack node frames s) = true
  | _, [], _, h => h
  | .mk n slf tot cs, f :: rest, s, h => by
    obtain ⟨h1, h2⟩ :=
      (by simpa [treeOk] using h : slf ≤ tot ∧ forestOk cs = true)
    have hc0 : treeOk (getChild cs f) = true := getChild_ok cs f h2
    have hc2 : treeOk (if rest = [] then bumpSelf (bumpTotal (getChild cs f) s) s
        else bumpTotal (getChild cs f) s) = true := by
      by_cases hr : rest = []
      · rw [if_pos hr]; exact bumpSelf_bumpTotal_ok _ s hc0
      · rw [if_neg hr]; exact bumpTotal_ok _ s hc0
    have hc3 := addStack_ok _ rest s hc2
    simp only [addStack, treeOk, StackTree.children, StackTree.name,
      StackTree.self_samples, StackTree.total_samples, Bool.and_eq_true,
      decide_eq_true_eq]
    exact ⟨h1, setChild_ok cs _ h2 hc3⟩

/-- C2: the root's `total_samples` equals the exact sum of the folded
stacks' sample counts, and every node of the resulting tree satisfies
`self_samples ≤ total_samples`. -/
theorem C2_tree_conservation (sts : List (List (List Char) × Nat × Rat))
    (dm : Bool) :
    (build_stack_tree sts dm).total_samples = (sts.map (fun e => e.2.1)).sum ∧
    treeOk (build_stack_tree sts dm) = true := by
  constructor
  · have h := build_total_aux dm sts (.mk (chars "root") 0 0 [])
    simpa [build_stack_tree, StackTree.total_samples] using h
  · have hfold : ∀ (l : List (List (List Char) × Nat × Rat)) (root : StackTree),
        treeOk root = true →
        treeOk (l.foldl (fun root e => addStack (StackTree.mk root.name
          root.self_samples (root.total_samples + e.2.1) root.children)
          (if dm then e.1.map demangle_name else e.1) e.2.1) root) = true := by
      intro l
      induction l with
      | nil => intro root h; exact h
      | cons e rest ih =>
        intro root h
        rw [List.foldl_cons]
        refine ih _ (addStack_ok _ _ _ ?_)
        cases root with
        | mk n slf tot cs =>
          simp only [treeOk, Bool.and_eq_true, decide_eq_true_eq,
            StackTree.name, StackTree.self_samples, StackTree.total_samples,
            StackTree.children] at h ⊢
          exact ⟨by omega, h.2⟩
    have h0 : treeOk (.mk (chars "root") 0 0 []) = true := by simp [treeOk, forestOk]
    simpa [build_stack_tree] using hfold sts _ h0

/-! ## C1: the containment scan uses the original frame's range -/

/-- The threaded `current_*` values are never reassigned, so the scan
equals its original-range formulation. -/
theorem scanLevels_eq_orig (byY : Int → List Frame) (f : Frame) :
    ∀ (levels : List Int) (stack : List (List Char)),
      scanLevels byY f.y f.x f.w levels stack = scanLevelsOrig byY f levels stack
  | [], _ => rfl
  | ly :: rest, stack => by
    unfold scanLevels scanLevelsOrig
    by_cases h : ly ≤ f.y
    · rw [if_pos h, if_pos h]
      exact scanLevels_eq_orig byY f rest stack
    · rw [if_neg h, if_neg h]
      cases (byY ly).find? (fun c => decide (c.x ≤ f.x ∧ f.x + f.w ≤ c.x + c.w)) with
      | none => exact scanLevels_eq_orig byY f rest stack
      | some c => exact scanLevels_eq_orig byY f rest (stack ++ [c.name])

/-- C1 amended: for every geometry-bearing frame, the candidate containment
test at every higher level is applied to the original frame's own
horizontal range; the matched ancestor's accumulated range is never
used. -/
theorem C1_reconstruction_uses_original_range (frames : List Frame) :
    reconstructStacks frames =
      (if frames = [] then [] else
        (sortFrames frames).map (fun f =>
          ((scanLevelsOrig (levelFrames frames) f (yLevels frames)
              [f.name]).reverse, f.samples, f.pct))) := by
  unfold reconstructStacks
  by_cases h : frames = []
  · rw [if_pos h, if_pos h]
  · rw [if_neg h, if_neg h]
    apply List.map_congr_left
    intro f _
    rw [buildStack, scanLevels_eq_orig]

/-- Counterexample to C1 as stated: with the leaf `f` at `[3,4]`, its
parent `A` at `[0,10]` one level up, and a frame `B` at `[2,8]` two levels
up, the code accepts `B` (it contains the original range `[3,4]`), while
the accumulated-range reading of the claim rejects it (it does not contain
`A`'s range `[0,10]`); the two reconstructions differ. -/
theorem C1_accumulated_range_counterexample :
    (reconstructStacks
      [⟨chars "f", 1, 0, 3, 1, 0⟩, ⟨chars "A", 1, 0, 0, 10, 1⟩,
       ⟨chars "B", 1, 0, 2, 6, 2⟩]).map (fun e => e.1) =
      [[chars "A"], [chars "B"], [chars "B", chars "A", chars "f"]] ∧
    (reconstructStacksAccum
      [⟨chars "f", 1, 0, 3, 1, 0⟩, ⟨chars "A", 1, 0, 0, 10, 1⟩,
       ⟨chars "B", 1, 0, 2, 6, 2⟩]).map (fun e => e.1) =
      [[chars "A"], [chars "B"], [chars "A", chars "f"]] ∧
    reconstructStacks
      [⟨chars "f", 1, 0, 3, 1, 0⟩, ⟨chars "A", 1, 0, 0, 10, 1⟩,
       ⟨chars "B", 1, 0, 2, 6, 2⟩] ≠
    reconstructStacksAccum
      [⟨chars "f", 1, 0, 3, 1, 0⟩, ⟨chars "A", 1, 0, 0, 10, 1⟩,
       ⟨chars "B", 1, 0, 2, 6, 2⟩] := by
  refine ⟨by decide, by decide, by decide⟩

/-! ## C9: hottest-stack abbreviation -/

/-- `renderHead` emits one line per frame. -/
theorem renderHead_length : ∀ (i : Nat) (l : List (List Char)),
    (renderHead i l).length = l.length
  | _, [] => rfl
  | i, _ :: rest => by simp [renderHead, renderHead_length (i + 1) rest]

/-- `renderTail` emits one line per frame. -/
theorem renderTail_length (total : Nat) : ∀ (i : Nat) (l : List (List Char)),
    (renderTail total i l).length = l.length
  | _, [] => rfl
  | i, _ :: rest => by simp [renderTail, renderTail_length total (i + 1) rest]

/-- The last line of a nonempty tail render is the arrow-marked terminal
frame. -/
theorem renderTail_getLast (total : Nat) :
    ∀ (l : List (List Char)) (i : Nat), l ≠ [] → i + l.length = total →
      (renderTail total i l).getLast? =
        some (indentOf (total - 1) ++ chars "→ " ++ (l.getLast?.getD []))
  | [], _, h, _ => absurd rfl h
  | [x], i, _, hi => by
    have : i = total - 1 := by simp at hi; omega
    simp [renderTail, this]
  | x :: y :: rest, i, _, hi => by
    have h1 : renderTail total i (x :: y :: rest) =
        (if i = total - 1 then indentOf i ++ chars "→ " ++ x else indentOf i ++ x) ::
        (if i + 1 = total - 1 then indentOf (i + 1) ++ chars "→ " ++ y
         else indentOf (i + 1) ++ y) :: renderTail total (i + 1 + 1) rest := rfl
    have h2 : renderTail total (i + 1) (y :: rest) =
        (if i + 1 = total - 1 then indentOf (i + 1) ++ chars "→ " ++ y
         else indentOf (i + 1) ++ y) :: renderTail total (i + 1 + 1) rest := rfl
    have ih := renderTail_getLast total (y :: rest) (i + 1) (by simp)
      (by simp only [List.length_cons] at hi ⊢; omega)
    rw [h1, List.getLast?_cons_cons, ← h2, ih, List.getLast?_cons_cons]

/-- Dropping fewer than all elements keeps the last one. -/
theorem getLast?_drop_eq : ∀ (l : List (List Char)) (k : Nat), k < l.length →
    (l.drop k).getLast? = l.getLast?
  | _, 0, _ => rfl
  | [], k + 1, h => absurd h (by simp)
  | x :: rest, k + 1, h => by
    have hr : rest ≠ [] := by
      intro hc
      rw [hc] at h
      simp at h
    rw [List.drop_succ_cons, getLast?_drop_eq rest k (by simp at h; omega)]
    cases rest with
    | nil => exact absurd rfl hr
    | cons y t => rw [List.getLast?_cons_cons]

/-- C9: whenever a rendered trace exceeds the positive `max_frames` limit,
the output is a head of `⌊max/3⌋` frames, an explicit `"N frames omitted"`
marker with `N` the number of skipped frames, and a tail of the remaining
`max - ⌊max/3⌋` frames; the terminal leaf frame is always among the shown
tail frames and its line carries the distinct `→` marker; the numbered
stack block of the listing wraps exactly these lines. -/
theorem C9_stack_abbreviation (frames : List (List Char)) (samples : Nat)
    (pct : Rat) (i max_frames : Nat) (h1 : 0 < max_frames)
    (h2 : max_frames < frames.length) :
    renderFrames frames max_frames =
      renderHead 0 (frames.take (max_frames / 3)) ++
        omitLine (frames.length - max_frames) ::
          renderTail frames.length (frames.length - (max_frames - max_frames / 3))
            (frames.drop (frames.length - (max_frames - max_frames / 3))) ∧
    (renderHead 0 (frames.take (max_frames / 3))).length = max_frames / 3 ∧
    (renderTail frames.length (frames.length - (max_frames - max_frames / 3))
        (frames.drop (frames.length - (max_frames - max_frames / 3)))).length =
      max_frames - max_frames / 3 ∧
    (renderFrames frames max_frames).getLast? =
      some (indentOf (frames.length - 1) ++ chars "→ " ++
        (frames.getLast?.getD [])) ∧
    stackBlock i frames samples pct max_frames =
      (chars "#" ++ natToChars i ++ chars ": " ++ natComma samples ++
          chars " samples (" ++ ratFixed 2 pct ++ chars "%)") ::
        repChar '-' 40 :: renderFrames frames max_frames ++ [[]] := by
  have hcond : ¬ (max_frames = 0 ∨ frames.length ≤ max_frames) := by omega
  have hdl : (frames.drop (frames.length - (max_frames - max_frames / 3))).length =
      max_frames - max_frames / 3 := by
    rw [List.length_drop]
    omega
  have htc : 0 < max_frames - max_frames / 3 := by
    have := Nat.div_lt_self h1 (by omega : 1 < 3)
    omega
  have hmain : renderFrames frames max_frames =
      renderHead 0 (frames.take (max_frames / 3)) ++
        omitLine (frames.length - max_frames) ::
          renderTail frames.length (frames.length - (max_frames - max_frames / 3))
            (frames.drop (frames.length - (max_frames - max_frames / 3))) := by
    rw [renderFrames, if_neg hcond]
    have harg : frames.length - max_frames / 3 - (max_frames - max_frames / 3) =
        frames.length - max_frames := by omega
    show renderHead 0 (List.take (max_frames / 3) frames) ++
      omitLine (frames.length - max_frames / 3 - (max_frames - max_frames / 3)) ::
        renderTail frames.length (frames.length - (max_frames - max_frames / 3))
          (List.drop (frames.length - (max_frames - max_frames / 3)) frames) = _
    rw [harg]
  refine ⟨hmain, ?_, ?_, ?_, rfl⟩
  · rw [renderHead_length, List.length_take]
    omega
  · rw [renderTail_length, hdl]
  · rw [hmain, List.getLast?_append]
    have hne : frames.drop (frames.length - (max_frames - max_frames / 3)) ≠ [] := by
      intro hc
      rw [hc] at hdl
      simp at hdl
      omega
    have hlast := renderTail_getLast frames.length
      (frames.drop (frames.length - (max_frames - max_frames / 3)))
      (frames.length - (max_frames - max_frames / 3)) hne (by omega)
    have hTne : renderTail frames.length (frames.length - (max_frames - max_frames / 3))
        (frames.drop (frames.length - (max_frames - max_frames / 3))) ≠ [] := by
      intro hc
      rw [hc] at hlast
      simp at hlast
    have hcons : ∀ (a : List Char) (T : List (List Char)), T ≠ [] →
        (a :: T).getLast? = T.getLast? := by
      intro a T hT
      cases T with
      | nil => exact absurd rfl hT
      | cons b t => exact List.getLast?_cons_cons
    rw [hcons _ _ hTne, hlast]
    rw [getLast?_drop_eq frames (frames.length - (max_frames - max_frames / 3)) (by omega)]
    simp

/-- Witness for C9 at a five-frame trace with `max_frames = 3`: one head
frame, a two-frame omission marker, two tail frames, and the arrow-marked
terminal leaf. -/
theorem C9_stack_abbreviation_witness :
    renderFrames [chars "r", chars "p", chars "q", chars "s", chars "t"] 3 =
      renderHead 0 ([chars "r", chars "p", chars "q", chars "s", chars "t"].take 1) ++
        omitLine 2 ::
          renderTail 5 3 ([chars "r", chars "p", chars "q", chars "s", chars "t"].drop 3) ∧
    (renderFrames [chars "r", chars "p", chars "q", chars "s", chars "t"] 3).getLast? =
      some (indentOf 4 ++ chars "→ " ++ chars "t") := by
  have h := C9_stack_abbreviation
    [chars "r", chars "p", chars "q", chars "s", chars "t"] 2 0 1 3
    (by decide) (by decide)
  refine ⟨?_, ?_⟩
  · simpa using h.1
  · simpa using h.2.2.2.1

/-! ## C7: CLI exit behaviour -/

/-- C7: the CLI exits non-zero with a stderr message when the input file is
missing (or unopenable) and when the document yields zero parseable frames,
and exits zero with the selected report(s) on standard output otherwise;
the two fatal messages are distinct. -/
theorem C7_cli_exit_behavior (file : Option (List Char)) (args : Args) :
    (file = none → run_main file args =
      ⟨1, [msgFileNotFound args.svg_file], []⟩) ∧
    (∀ content, file = some content → extract_titles_from_svg content = [] →
      run_main file args = ⟨1, [msgNoData], []⟩) ∧
    (∀ content, file = some content → extract_titles_from_svg content ≠ [] →
      (run_main file args).exitCode = 0 ∧ (run_main file args).stderrLines = [] ∧
        (run_main file args).stdoutLines ≠ []) ∧
    msgFileNotFound args.svg_file ≠ msgNoData := by
  refine ⟨?_, ?_, ?_, ?_⟩
  · rintro rfl
    rfl
  · rintro content rfl h
    simp [run_main, h]
  · rintro content rfl h
    simp only [run_main]
    rw [if_neg h]
    split
    · exact ⟨rfl, rfl, by simp⟩
    · exact ⟨rfl, rfl, by simp⟩
  · intro hcontra
    have h1 : (msgFileNotFound args.svg_file).head? = some 'E' := rfl
    rw [hcontra] at h1
    have h2 : msgNoData.head? = some 'N' := rfl
    rw [h2] at h1
    exact absurd (Option.some.inj h1) (by decide)

/-- Witness for C7: a missing input file exits 1 with the file-not-found
message on stderr and nothing on stdout. -/
theorem C7_cli_exit_behavior_witness :
    run_main none { svg_file := chars "profile.svg" } =
      ⟨1, [msgFileNotFound (chars "profile.svg")], []⟩ :=
  (C7_cli_exit_behavior none { svg_file := chars "profile.svg" }).1 rfl

/-! ## C8: hottest-path tree formatter -/

/-- A filtered-append fold pulls its accumulator out front. -/
theorem foldl_filter_append {α β : Type} (p : α → Prop) [DecidablePred p]
    (g : α → List β) :
    ∀ (cs : List α) (init : List β),
      cs.foldl (fun acc c => if p c then acc else acc ++ g c) init =
        init ++ cs.foldl (fun acc c => if p c then acc else acc ++ g c) []
  | [], init => by simp
  | c :: cs, init => by
    rw [List.foldl_cons, List.foldl_cons]
    by_cases h : p c
    · rw [if_pos h, if_pos h]
      exact foldl_filter_append p g cs init
    · rw [if_neg h, if_neg h]
      rw [foldl_filter_append p g cs (init ++ g c),
        foldl_filter_append p g cs ([] ++ g c)]
      simp [List.append_assoc]

/-- A filtered-sum fold pulls its accumulator out front. -/
theorem foldl_filter_add {α : Type} (p : α → Prop) [DecidablePred p]
    (g : α → Nat) :
    ∀ (cs : List α) (init : Nat),
      cs.foldl (fun acc c => if p c then acc else acc + g c) init =
        init + cs.foldl (fun acc c => if p c then acc else acc + g c) 0
  | [], init => by simp
  | c :: cs, init => by
    rw [List.foldl_cons, List.foldl_cons]
    by_cases h : p c
    · rw [if_pos h, if_pos h]
      exact foldl_filter_add p g cs init
    · rw [if_neg h, if_neg h]
      rw [foldl_filter_add p g cs (init + g c), foldl_filter_add p g cs (0 + g c)]
      omega

/-- An entry budget of zero means the spec render of the children is
empty. -/
theorem specRender_nil_of_count_nil (minp : Rat) (total : Nat) (fuel : Nat)
    (depth : Nat) :
    ∀ cs : List StackTree,
      cs.foldl (fun acc child =>
        if pctOf total child.total_samples < minp then acc
        else acc + (1 + specTreeCount minp total fuel child)) 0 = 0 →
      cs.foldl (fun acc child =>
        if pctOf total child.total_samples < minp then acc
        else acc ++ (entryLines total child depth ++
          specTreeRender minp total fuel child (depth + 1))) [] = []
  | [], _ => rfl
  | c :: cs, h => by
    rw [List.foldl_cons] at h ⊢
    by_cases hp : pctOf total c.total_samples < minp
    · rw [if_pos hp] at h ⊢
      exact specRender_nil_of_count_nil minp total fuel depth cs h
    · rw [if_neg hp] at h
      rw [foldl_filter_add (fun child => pctOf total child.total_samples < minp)
        (fun child => 1 + specTreeCount minp total fuel child) cs
        (0 + (1 + specTreeCount minp total fuel c))] at h
      omega

/-- With at most `3·top_n` uncapped entries, the capped `format_node`
emits exactly the uncapped depth-first render and its final `shown` count
is the uncapped entry count. -/
theorem formatNodeF_eq_spec (top_n : Nat) (minp : Rat) (total : Nat) :
    ∀ (fuel : Nat) (node : StackTree) (depth shown : Nat),
      shown + specTreeCount minp total fuel node ≤ top_n * 3 →
      formatNodeF top_n minp total fuel node depth shown =
        (specTreeRender minp total fuel node depth,
          shown + specTreeCount minp total fuel node)
  | 0, node, depth, shown, _ => by
    simp [formatNodeF, specTreeRender, specTreeCount]
  | fuel + 1, node, depth, shown, h => by
    by_cases hguard : top_n * 3 ≤ shown
    · have hc0 : specTreeCount minp total (fuel + 1) node = 0 := by omega
      have hr0 : specTreeRender minp total (fuel + 1) node depth = [] := by
        rw [specTreeRender]
        rw [specTreeCount] at hc0
        exact specRender_nil_of_count_nil minp total fuel depth _ hc0
      rw [formatNodeF, if_pos hguard, hr0, hc0]
      simp
    · rw [specTreeCount] at h
      rw [formatNodeF, if_neg hguard, specTreeRender, specTreeCount]
      generalize hcs : stableSort (fun e a => decide (a.total_samples < e.total_samples))
        node.children = cs at h ⊢
      suffices hs : ∀ (cs2 : List StackTree) (l0 : List (List Char)) (s0 : Nat),
          s0 + cs2.foldl (fun acc child =>
            if pctOf total child.total_samples < minp then acc
            else acc + (1 + specTreeCount minp total fuel child)) 0 ≤ top_n * 3 →
          cs2.foldl (fun acc child =>
            if pctOf total child.total_samples < minp then acc
            else
              (acc.1 ++ entryLines total child depth ++
                (formatNodeF top_n minp total fuel child (depth + 1) (acc.2 + 1)).1,
               (formatNodeF top_n minp total fuel child (depth + 1) (acc.2 + 1)).2))
            (l0, s0) =
          (l0 ++ cs2.foldl (fun acc child =>
            if pctOf total child.total_samples < minp then acc
            else acc ++ (entryLines total child depth ++
              specTreeRender minp total fuel child (depth + 1))) [],
           s0 + cs2.foldl (fun acc child =>
            if pctOf total child.total_samples < minp then acc
            else acc + (1 + specTreeCount minp total fuel child)) 0) by
        simpa using hs cs [] shown h
      intro cs2
      induction cs2 with
      | nil => intro l0 s0 _; simp
      | cons c rest ih =>
        intro l0 s0 h0
        rw [List.foldl_cons, List.foldl_cons, List.foldl_cons]
        rw [List.foldl_cons] at h0
        by_cases hp : pctOf total c.total_samples < minp
        · rw [if_pos hp, if_pos hp, if_pos hp]
          rw [if_pos hp] at h0
          exact ih l0 s0 h0
        · rw [if_neg hp, if_neg hp, if_neg hp]
          rw [if_neg hp] at h0
          rw [foldl_filter_add (fun child => pctOf total child.total_samples < minp)
            (fun child => 1 + specTreeCount minp total fuel child) rest
            (0 + (1 + specTreeCount minp total fuel c))] at h0
          dsimp only
          have hsub := formatNodeF_eq_spec top_n minp total fuel c (depth + 1)
            (s0 + 1) (by omega)
          rw [hsub]
          dsimp only
          rw [ih (l0 ++ entryLines total c depth ++
              specTreeRender minp total fuel c (depth + 1))
            (s0 + 1 + specTreeCount minp total fuel c) (by omega)]
          rw [List.nil_append,
            foldl_filter_append (fun child => pctOf total child.total_samples < minp)
              (fun child => entryLines total child depth ++
                specTreeRender minp total fuel child (depth + 1)) rest
              (entryLines total c depth ++ specTreeRender minp total fuel c (depth + 1)),
            foldl_filter_add (fun child => pctOf total child.total_samples < minp)
              (fun child => 1 + specTreeCount minp total fuel child) rest
              (0 + (1 + specTreeCount minp total fuel c))]
          simp only [Prod.mk.injEq]
          constructor
          · simp [List.append_assoc]
          · omega

/-- C8 amended: the formatter renders depth-first with children sorted
descending by `total_samples` and below-threshold children pruned, but the
`3·top_n` cap bounds rendered entries (two lines each) and is checked only
on node entry: whenever the uncapped render holds at most `3·top_n`
entries, the output equals the header plus the uncapped depth-first render
(with the code's trailing-blank-line removal); total output lines are not
bounded by `3·top_n`. -/
theorem C8_tree_render_amended (tree : StackTree) (top_n : Nat)
    (min_percent : Rat) (total : Nat)
    (hcount : specTreeCount min_percent total (top_n * 3 + 1) tree ≤ top_n * 3) :
    format_stack_tree_lines tree top_n min_percent total =
      (let all := [repChar '=' 80, chars "STACK TREE (hottest paths)",
          repChar '=' 80, [], chars "Total samples: " ++ natComma total, []] ++
          specTreeRender min_percent total (top_n * 3 + 1) tree 0
       if all.getLast? = some [] then all.dropLast else all) := by
  have h := formatNodeF_eq_spec top_n min_percent total (top_n * 3 + 1) tree 0 0
    (by omega)
  rw [format_stack_tree_lines, h]

/-- Counterexample to the `3 × top-N` output-line cap of C8: with
`top_n = 1` a root with four equal children renders four entries (the
sibling loop never re-checks the cap), 14 output lines in all, exceeding
3. -/
theorem C8_line_cap_counterexample :
    3 * 1 < (format_stack_tree_lines (StackTree.mk (chars "root") 0 40
      [.mk (chars "a") 10 10 [], .mk (chars "b") 10 10 [],
       .mk (chars "c") 10 10 [], .mk (chars "d") 10 10 []]) 1 0 40).length := by
  decide

/-- Witness for the amended C8 at a two-child tree with `top_n = 1` (two
entries, within the cap). -/
theorem C8_tree_render_amended_witness :
    format_stack_tree_lines (StackTree.mk (chars "root") 0 30
        [.mk (chars "a") 20 20 [], .mk (chars "b") 10 10 []]) 1 0 30 =
      (let all := [repChar '=' 80, chars "STACK TREE (hottest paths)",
          repChar '=' 80, [], chars "Total samples: " ++ natComma 30, []] ++
          specTreeRender 0 30 (1 * 3 + 1)
            (StackTree.mk (chars "root") 0 30
              [.mk (chars "a") 20 20 [], .mk (chars "b") 10 10 []]) 0
       if all.getLast? = some [] then all.dropLast else all) :=
  C8_tree_render_amended
    (StackTree.mk (chars "root") 0 30
      [.mk (chars "a") 20 20 [], .mk (chars "b") 10 10 []]) 1 0 30 (by decide)

/-! ## C3: demangle idempotence -/

/-- One strip pass either returns its input unchanged or strictly shortens
it (stated with the scanner state made explicit; the state `some acc`
stands for the pending `'<' :: acc.reverse`). -/
theorem stripSM_len : ∀ (s : List Char) (st : Option (List Char)),
    stripTemplatesSM st s = (match st with
      | none => s
      | some acc => '<' :: acc.reverse ++ s) ∨
    (stripTemplatesSM st s).length < (match st with
      | none => s
      | some acc => '<' :: acc.reverse ++ s).length
  | [], none => Or.inl rfl
  | [], some acc => by
    left
    simp [stripTemplatesSM]
  | c :: rest, none => by
    simp only [stripTemplatesSM]
    by_cases h : c = '<'
    · rw [if_pos h]
      subst h
      rcases stripSM_len rest (some []) with h2 | h2
      · left
        rw [h2]
        simp
      · right
        refine lt_of_lt_of_le h2 ?_
        simp
    · rw [if_neg h]
      rcases stripSM_len rest none with h2 | h2
      · left
        rw [h2]
      · right
        simpa using h2
  | c :: rest, some acc => by
    simp only [stripTemplatesSM]
    by_cases h1 : c = '>'
    · rw [if_pos h1]
      right
      have hle : (stripTemplatesSM none rest).length ≤ rest.length := by
        rcases stripSM_len rest none with h2 | h2
        · rw [h2]
        · exact le_of_lt h2
      simp only [List.length_cons, List.length_append, List.length_reverse]
      omega
    · by_cases h2 : c = '<'
      · rw [if_neg h1, if_pos h2]
        rcases stripSM_len rest (some []) with h3 | h3
        · left
          rw [h3]
          subst h2
          simp
        · right
          simp only [List.length_append, List.length_cons, List.length_nil,
            List.length_reverse] at h3 ⊢
          omega
      · rw [if_neg h1, if_neg h2]
        rcases stripSM_len rest (some (c :: acc)) with h3 | h3
        · left
          rw [h3]
          simp
        · right
          simp only [List.length_append, List.length_cons, List.length_nil,
            List.length_reverse] at h3 ⊢
          omega

/-- One strip pass either fixes the string or strictly shortens it. -/
theorem stripTemplates_len (s : List Char) :
    stripTemplates s = s ∨ (stripTemplates s).length < s.length :=
  stripSM_len s none

/-- The removal loop reaches the fixed point of the strip pass whenever its
fuel exceeds the string length. -/
theorem removeLoop_fix : ∀ (n : Nat) (s : List Char), s.length < n →
    stripTemplates (removeTemplatesLoop n s) = removeTemplatesLoop n s
  | 0, _, h => absurd h (by omega)
  | n + 1, s, h => by
    rw [removeTemplatesLoop]
    by_cases he : stripTemplates s = s
    · rw [if_pos he]
      exact he
    · rw [if_neg he]
      refine removeLoop_fix n (stripTemplates s) ?_
      rcases stripTemplates_len s with h2 | h2
      · exact absurd h2 he
      · omega

/-- `removeTemplates` lands on a fixed point of the strip pass, exactly as
the Python `while prev != result` loop guarantees. -/
theorem removeTemplates_fix (s : List Char) :
    stripTemplates (removeTemplates s) = removeTemplates s :=
  removeLoop_fix (s.length + 1) s (Nat.lt_succ_self _)

/-- A strip pass never lengthens the string. -/
theorem stripSM_none_le (s : List Char) :
    (stripTemplatesSM none s).length ≤ s.length := by
  rcases stripSM_len s none with h | h
  · rw [h]
  · exact le_of_lt h

/-- `badAdj` ignores a leading character that is not `<`. -/
theorem badAdj_cons_of_ne (c : Char) (X : List Char) (h : c ≠ '<') :
    badAdj (c :: X) = badAdj X := by
  cases X with
  | nil => simp [badAdj]
  | cons b t => simp [badAdj, h]

/-- A pending or removable group forces the strip pass to shorten the
string. -/
theorem stripSM_badAdj_len : ∀ (s : List Char) (st : Option (List Char)),
    (match st with
     | none => badAdj (angles s) = true
     | some _ => badAdj ('<' :: angles s) = true) →
    (stripTemplatesSM st s).length < (match st with
     | none => s
     | some acc => '<' :: acc.reverse ++ s).length
  | [], none, h => by simp [angles, badAdj] at h
  | [], some acc, h => by simp [angles, badAdj] at h
  | c :: rest, none, h => by
    simp only [stripTemplatesSM]
    by_cases hc : c = '<'
    · rw [if_pos hc]
      rw [hc] at h
      simp only [angles, List.filter_cons] at h
      norm_num at h
      have hrec := stripSM_badAdj_len rest (some []) (by simpa [angles] using h)
      simp only [List.reverse_nil, List.nil_append] at hrec
      simpa [hc] using hrec
    · rw [if_neg hc]
      have hrest : badAdj (angles rest) = true := by
        by_cases hg : c = '>'
        · rw [hg] at h
          simp only [angles, List.filter_cons] at h
          norm_num at h
          rwa [badAdj_cons_of_ne '>' _ (by decide)] at h
        · simpa [angles, List.filter_cons, hc, hg] using h
      have hrec := stripSM_badAdj_len rest none hrest
      simpa using hrec
  | c :: rest, some acc, h => by
    simp only [stripTemplatesSM]
    by_cases h1 : c = '>'
    · rw [if_pos h1]
      have := stripSM_none_le rest
      simp only [List.length_cons, List.length_append, List.length_reverse]
      omega
    · by_cases h2 : c = '<'
      · rw [if_neg h1, if_pos h2]
        rw [h2] at h
        simp only [angles, List.filter_cons] at h
        norm_num at h
        rw [show ('<' :: '<' :: List.filter (fun c => decide (c = '<') || decide (c = '>')) rest) =
            '<' :: '<' :: angles rest from rfl] at h
        have hh : badAdj ('<' :: angles rest) = true := by
          cases ha : angles rest with
          | nil => rw [ha] at h; simp [badAdj] at h
          | cons b t => rw [ha] at h; simpa [badAdj] using h
        have hrec := stripSM_badAdj_len rest (some []) hh
        simp only [List.reverse_nil, List.cons_append, List.nil_append,
          List.length_cons] at hrec
        simp only [List.length_append, List.length_cons, List.length_reverse]
        omega
      · rw [if_neg h1, if_neg h2]
        have hh : badAdj ('<' :: angles rest) = true := by
          simpa [angles, List.filter_cons, h1, h2] using h
        have hrec := stripSM_badAdj_len rest (some (c :: acc)) hh
        simp only [List.length_append, List.length_cons, List.length_reverse] at hrec ⊢
        omega

/-- Without a pending or removable group, the strip pass is the
identity. -/
theorem stripSM_id_of_good : ∀ (s : List Char) (st : Option (List Char)),
    (match st with
     | none => badAdj (angles s) = false
     | some _ => badAdj ('<' :: angles s) = false) →
    stripTemplatesSM st s = (match st with
     | none => s
     | some acc => '<' :: acc.reverse ++ s)
  | [], none, _ => rfl
  | [], some acc, _ => by simp [stripTemplatesSM]
  | c :: rest, none, h => by
    simp only [stripTemplatesSM]
    by_cases hc : c = '<'
    · rw [if_pos hc]
      rw [hc] at h
      simp only [angles, List.filter_cons] at h
      norm_num at h
      have hrec := stripSM_id_of_good rest (some []) (by simpa [angles] using h)
      rw [hrec]
      simp [hc]
    · rw [if_neg hc]
      have hrest : badAdj (angles rest) = false := by
        by_cases hg : c = '>'
        · rw [hg] at h
          simp only [angles, List.filter_cons] at h
          norm_num at h
          rwa [badAdj_cons_of_ne '>' _ (by decide)] at h
        · simpa [angles, List.filter_cons, hc, hg] using h
      rw [stripSM_id_of_good rest none hrest]
  | c :: rest, some acc, h => by
    simp only [stripTemplatesSM]
    by_cases h1 : c = '>'
    · exfalso
      rw [h1] at h
      simp only [angles, List.filter_cons] at h
      norm_num at h
      simp [badAdj] at h
    · by_cases h2 : c = '<'
      · rw [if_neg h1, if_pos h2]
        rw [h2] at h
        simp only [angles, List.filter_cons] at h
        norm_num at h
        have hh : badAdj ('<' :: angles rest) = false := by
          have hstep : badAdj ('<' :: '<' :: angles rest) = badAdj ('<' :: angles rest) := by
            simp [badAdj]
          rw [← hstep]
          exact h
        rw [stripSM_id_of_good rest (some []) hh, h2]
        simp
      · rw [if_neg h1, if_neg h2]
        have hh : badAdj ('<' :: angles rest) = false := by
          simpa [angles, List.filter_cons, h1, h2] using h
        rw [stripSM_id_of_good rest (some (c :: acc)) hh]
        simp

/-- A fixed point of the strip pass has no removable group. -/
theorem badAdj_angles_of_fix (r : List Char) (hfix : stripTemplates r = r) :
    badAdj (angles r) = false := by
  by_contra hbad
  rw [Bool.not_eq_false] at hbad
  have hlen := stripSM_badAdj_len r none hbad
  rw [show stripTemplatesSM none r = stripTemplates r from rfl, hfix] at hlen
  exact lt_irrefl _ hlen

/-- Whitespace characters are not angle brackets. -/
theorem isSpace_not_angle (c : Char) (h : isSpace c = true) :
    (decide (c = '<') || decide (c = '>')) = false := by
  simp only [isSpace, Bool.or_eq_true, decide_eq_true_eq] at h
  rcases h with ((((h | h) | h) | h) | h) | h <;> subst h <;> rfl

/-- `angles` of a cons. -/
theorem angles_cons (c : Char) (l : List Char) :
    angles (c :: l) =
      if (decide (c = '<') || decide (c = '>')) = true then c :: angles l
      else angles l := by
  simp [angles, List.filter_cons]

/-- `collapseWS` keeps the angle-bracket sequence. -/
theorem angles_collapseWS : ∀ s : List Char, angles (collapseWS s) = angles s
  | [] => rfl
  | c :: rest => by
    simp only [collapseWS]
    by_cases hs : isSpace c = true
    · rw [if_pos hs]
      by_cases hh : headSpace rest = true
      · rw [if_pos hh, angles_collapseWS rest, angles_cons,
          isSpace_not_angle c hs]
        simp
      · rw [if_neg hh, angles_cons, angles_cons c rest,
          isSpace_not_angle c hs]
        simp only [Bool.false_eq_true, if_false]
        rw [show (decide (' ' = '<') || decide (' ' = '>')) = false from rfl]
        simp only [Bool.false_eq_true, if_false]
        exact angles_collapseWS rest
    · rw [if_neg hs, angles_cons, angles_cons c rest, angles_collapseWS rest]

/-- Dropping leading whitespace keeps the angle-bracket sequence. -/
theorem angles_dropWhile (s : List Char) :
    angles (s.dropWhile isSpace) = angles s := by
  conv_rhs => rw [← List.takeWhile_append_dropWhile isSpace s]
  unfold angles
  rw [List.filter_append]
  have h1 : (s.takeWhile isSpace).filter (fun c => decide (c = '<') || decide (c = '>')) = [] := by
    rw [List.filter_eq_nil_iff]
    intro a ha
    have h2 := List.mem_takeWhile_imp ha
    simp [isSpace_not_angle a h2]
  rw [h1, List.nil_append]

/-- Reversal reverses the angle-bracket sequence. -/
theorem angles_reverse (s : List Char) : angles s.reverse = (angles s).reverse :=
  List.filter_reverse _ s

/-- Stripping keeps the angle-bracket sequence. -/
theorem angles_pyStrip (s : List Char) : angles (pyStrip s) = angles s := by
  unfold pyStrip
  rw [angles_reverse, angles_dropWhile, angles_reverse, angles_dropWhile,
    List.reverse_reverse]

/-- The collapsed string has only plain spaces as whitespace, never two
adjacent, and starts with a space only if the input started with
whitespace. -/
theorem collapseWS_good : ∀ s : List Char,
    ((∀ c ∈ collapseWS s, isSpace c = true → c = ' ') ∧
      List.Chain' (fun a b => ¬(a = ' ' ∧ b = ' ')) (collapseWS s)) ∧
    (∀ x, (collapseWS s).head? = some x → x = ' ' → headSpace s = true)
  | [] => by
    refine ⟨⟨?_, ?_⟩, ?_⟩
    · intro c hc
      exact absurd hc (List.not_mem_nil c)
    · exact List.chain'_nil
    · intro x hx _
      simp [collapseWS] at hx
  | c :: rest => by
    obtain ⟨⟨hmem, hchain⟩, hhead⟩ := collapseWS_good rest
    simp only [collapseWS]
    by_cases hs : isSpace c = true
    · rw [if_pos hs]
      by_cases hh : headSpace rest = true
      · rw [if_pos hh]
        exact ⟨⟨hmem, hchain⟩, fun x _ _ => by simp [headSpace, hs]⟩
      · rw [if_neg hh]
        refine ⟨⟨?_, ?_⟩, ?_⟩
        · intro d hd hds
          rcases List.mem_cons.mp hd with rfl | hd2
          · rfl
          · exact hmem d hd2 hds
        · rw [List.chain'_cons']
          refine ⟨?_, hchain⟩
          intro y hy hcontra
          obtain ⟨_, hy2⟩ := hcontra
          exact hh (hhead y hy hy2)
        · intro x _ _
          simp [headSpace, hs]
    · rw [if_neg hs]
      refine ⟨⟨?_, ?_⟩, ?_⟩
      · intro d hd hds
        rcases List.mem_cons.mp hd with rfl | hd2
        · exact absurd hds (by simpa using hs)
        · exact hmem d hd2 hds
      · rw [List.chain'_cons']
        refine ⟨?_, hchain⟩
        intro y _ hcontra
        obtain ⟨hc1, _⟩ := hcontra
        rw [hc1] at hs
        exact hs (by decide)
      · intro x hx hx2
        have hcx : c = x := Option.some.inj hx
        exact absurd (by rw [hcx, hx2]; decide) hs

/-- `pyStrip` preserves the collapsed-whitespace shape. -/
theorem spOk_pyStrip (s : List Char)
    (hmem : ∀ c ∈ s, isSpace c = true → c = ' ')
    (hch : List.Chain' (fun a b => ¬(a = ' ' ∧ b = ' ')) s) :
    (∀ c ∈ pyStrip s, isSpace c = true → c = ' ') ∧
      List.Chain' (fun a b => ¬(a = ' ' ∧ b = ' ')) (pyStrip s) := by
  constructor
  · intro c hc
    apply hmem
    have h1 : c ∈ ((s.dropWhile isSpace).reverse.dropWhile isSpace).reverse := hc
    rw [List.mem_reverse] at h1
    have h2 := List.dropWhile_subset isSpace h1
    rw [List.mem_reverse] at h2
    exact List.dropWhile_subset isSpace h2
  · have step1 : List.Chain' (fun a b => ¬(a = ' ' ∧ b = ' '))
        (s.dropWhile isSpace) := hch.suffix (List.dropWhile_suffix isSpace)
    have hsymm : ∀ (a b : Char), (¬(a = ' ' ∧ b = ' ')) → ¬(b = ' ' ∧ a = ' ') :=
      fun a b h hc => h ⟨hc.2, hc.1⟩
    have step2 : List.Chain' (fun a b => ¬(a = ' ' ∧ b = ' '))
        (s.dropWhile isSpace).reverse :=
      List.chain'_reverse.mpr (step1.imp hsymm)
    have step3 : List.Chain' (fun a b => ¬(a = ' ' ∧ b = ' '))
        ((s.dropWhile isSpace).reverse.dropWhile isSpace) :=
      step2.suffix (List.dropWhile_suffix isSpace)
    exact List.chain'_reverse.mpr (step3.imp hsymm)

/-- On a collapsed-shape string, `collapseWS` is the identity. -/
theorem collapseWS_id : ∀ s : List Char,
    (∀ c ∈ s, isSpace c = true → c = ' ') →
    List.Chain' (fun a b => ¬(a = ' ' ∧ b = ' ')) s → collapseWS s = s
  | [], _, _ => rfl
  | c :: rest, hmem, hch => by
    simp only [collapseWS]
    have hrel := (List.chain'_cons'.mp hch).1
    have hch' := (List.chain'_cons'.mp hch).2
    have hmem' : ∀ d ∈ rest, isSpace d = true → d = ' ' :=
      fun d hd => hmem d (List.mem_cons_of_mem c hd)
    by_cases hs : isSpace c = true
    · have hc : c = ' ' := hmem c (List.mem_cons_self c rest) hs
      rw [if_pos hs]
      have hh : headSpace rest = false := by
        cases rest with
        | nil => rfl
        | cons d t =>
          by_cases hd : isSpace d = true
          · have hd' : d = ' ' := hmem' d (List.mem_cons_self d t) hd
            exact absurd ⟨hc, hd'⟩ (hrel d rfl)
          · simpa [headSpace] using hd
      rw [hh]
      simp only [Bool.false_eq_true, if_false]
      rw [collapseWS_id rest hmem' hch', hc]
    · rw [if_neg hs, collapseWS_id rest hmem' hch']

/-- The head of `dropWhile isSpace` is never whitespace. -/
theorem head_dropWhile_space : ∀ (l : List Char) (x : Char),
    (l.dropWhile isSpace).head? = some x → isSpace x = false
  | [], x, h => by simp at h
  | c :: t, x, h => by
    by_cases hc : isSpace c = true
    · rw [List.dropWhile_cons, if_pos hc] at h
      exact head_dropWhile_space t x h
    · rw [List.dropWhile_cons, if_neg hc] at h
      have hcx : c = x := Option.some.inj h
      rw [← hcx]
      exact Bool.not_eq_true _ ▸ hc

/-- A list whose head is not whitespace is unchanged by `dropWhile`. -/
theorem dropWhile_eq_self_of_head (l : List Char)
    (h : ∀ x, l.head? = some x → isSpace x = false) :
    l.dropWhile isSpace = l := by
  cases l with
  | nil => rfl
  | cons c t =>
    have hc : isSpace c = false := h c rfl
    rw [List.dropWhile_cons, if_neg (by simp [hc])]

/-- A nonempty suffix shares its last element with the whole list. -/
theorem getLast?_of_suffix {l1 l2 : List Char} (h : l1 <:+ l2)
    (hne : l1 ≠ []) : l1.getLast? = l2.getLast? := by
  obtain ⟨t, rfl⟩ := h
  exact (List.getLast?_append_of_ne_nil t hne).symm

/-- The first character of a stripped string is never whitespace. -/
theorem pyStrip_head (s : List Char) (x : Char)
    (h : (pyStrip s).head? = some x) : isSpace x = false := by
  unfold pyStrip at h
  rw [List.head?_reverse] at h
  have hb : ((s.dropWhile isSpace).reverse.dropWhile isSpace) ≠ [] := by
    intro hnil
    rw [hnil] at h
    simp at h
  rw [getLast?_of_suffix (List.dropWhile_suffix isSpace) hb,
    List.getLast?_reverse] at h
  exact head_dropWhile_space _ x h

/-- The last character of a stripped string is never whitespace. -/
theorem pyStrip_last (s : List Char) (x : Char)
    (h : (pyStrip s).getLast? = some x) : isSpace x = false := by
  unfold pyStrip at h
  rw [List.getLast?_reverse] at h
  exact head_dropWhile_space _ x h

/-- Python strip is idempotent. -/
theorem pyStrip_idem (s : List Char) : pyStrip (pyStrip s) = pyStrip s := by
  have h1 : (pyStrip s).dropWhile isSpace = pyStrip s :=
    dropWhile_eq_self_of_head _ (pyStrip_head s)
  have h2 : (pyStrip s).reverse.dropWhile isSpace = (pyStrip s).reverse := by
    apply dropWhile_eq_self_of_head
    intro x hx
    rw [List.head?_reverse] at hx
    exact pyStrip_last s x hx
  show (((pyStrip s).dropWhile isSpace).reverse.dropWhile isSpace).reverse
      = pyStrip s
  rw [h1, h2, List.reverse_reverse]

/-- C3: the label normalizer `demangle_name` is idempotent on every string
(including arbitrarily nested angle-bracket groups), and the nested example
normalizes to the bare function name. -/
theorem C3_demangle_idempotent :
    (∀ s : List Char, demangle_name (demangle_name s) = demangle_name s) ∧
    demangle_name (chars ("f<g<h<i>>>")) = chars ("f") := by
  refine ⟨?_, by decide⟩
  intro s
  have hfix : stripTemplates (removeTemplates s) = removeTemplates s :=
    removeTemplates_fix s
  have hgood : badAdj (angles (removeTemplates s)) = false :=
    badAdj_angles_of_fix _ hfix
  have hang : angles (demangle_name s) = angles (removeTemplates s) := by
    unfold demangle_name
    rw [angles_pyStrip, angles_collapseWS]
  have hgood_u : badAdj (angles (demangle_name s)) = false := by
    rw [hang]
    exact hgood
  have hstrip_u : stripTemplates (demangle_name s) = demangle_name s :=
    stripSM_id_of_good (demangle_name s) none hgood_u
  have hloop_u : removeTemplates (demangle_name s) = demangle_name s := by
    simp [removeTemplates, removeTemplatesLoop, hstrip_u]
  have hcws_u : collapseWS (demangle_name s) = demangle_name s := by
    obtain ⟨⟨hmem, hch⟩, _⟩ := collapseWS_good (removeTemplates s)
    obtain ⟨hmem2, hch2⟩ := spOk_pyStrip (collapseWS (removeTemplates s)) hmem hch
    exact collapseWS_id _ hmem2 hch2
  have hps_u : pyStrip (demangle_name s) = demangle_name s :=
    pyStrip_idem (collapseWS (removeTemplates s))
  show pyStrip (collapseWS (removeTemplates (demangle_name s))) = demangle_name s
  rw [hloop_u, hcws_u]
  exact hps_u

/-! ## C6: round-trip of well-formed title annotations -/

/-- A character of a `takeWhile` result satisfies the predicate; in
particular a predicate failing on a parenthesis excludes one. -/
theorem not_paren_of_mem_take {l : List Char} (p : Char → Bool)
    (hp : p '(' = false) (h : '(' ∈ l.takeWhile p) : False := by
  have := List.mem_takeWhile_imp h
  rw [hp] at this
  exact Bool.false_ne_true this

/-- The optional-plural match either keeps `r3` or drops a leading `s`. -/
theorem stripPluralS : ∀ r3 : List Char,
    (match r3 with | 's' :: r => r | r => r) = r3 ∨
    ('s' :: (match r3 with | 's' :: r => r | r => r)) = r3
  | [] => Or.inl rfl
  | c :: t => by
    by_cases hc : c = 's'
    · subst hc
      exact Or.inr rfl
    · left
      cases t <;> simp [hc]

/-- A successful tail match decomposes its input as a nonempty whitespace
run, an opening parenthesis, and a remainder containing no parenthesis. -/
theorem matchTail_structure (cs dg p : List Char)
    (h : matchTail cs = some (dg, p)) :
    cs.takeWhile isSpace ≠ [] ∧
    ∃ rest, cs.dropWhile isSpace = '(' :: rest ∧ '(' ∉ rest := by
  unfold matchTail at h
  split at h
  · exact absurd h (by simp)
  next h0 =>
  split at h
  next r1 heq =>
    refine ⟨h0, r1, heq, ?_⟩
    intro hmem
    dsimp only [] at h
    split at h
    · exact absurd h (by simp)
    next hd1 =>
    split at h
    · exact absurd h (by simp)
    next hw2 =>
    split at h
    next r3 heq2 =>
      split at h
      next r5 heq3 =>
        split at h
        · exact absurd h (by simp)
        next hw3 =>
        split at h
        · exact absurd h (by simp)
        next hp1 =>
        split at h
        next heq5 =>
          rw [← List.takeWhile_append_dropWhile isDigitComma r1] at hmem
          rcases List.mem_append.mp hmem with hm | hm
          · exact not_paren_of_mem_take isDigitComma (by decide) hm
          rw [← List.takeWhile_append_dropWhile isSpace
            (r1.dropWhile isDigitComma)] at hm
          rcases List.mem_append.mp hm with hm | hm
          · exact not_paren_of_mem_take isSpace (by decide) hm
          rw [heq2] at hm
          simp only [List.mem_cons] at hm
          rcases hm with hm | hm | hm | hm | hm | hm | hm
          iterate 6 exact absurd hm (by decide)
          have hm4 : '(' ∈ (match r3 with | 's' :: r => r | r => r) := by
            rcases stripPluralS r3 with he | he
            · rw [he]
              exact hm
            · rw [← he] at hm
              rcases List.mem_cons.mp hm with hm2 | hm2
              · exact absurd hm2 (by decide)
              · exact hm2
          rw [heq3] at hm4
          rcases List.mem_cons.mp hm4 with hm5 | hm5
          · exact absurd hm5 (by decide)
          rw [← List.takeWhile_append_dropWhile isSpace r5] at hm5
          rcases List.mem_append.mp hm5 with hm6 | hm6
          · exact not_paren_of_mem_take isSpace (by decide) hm6
          rw [← List.takeWhile_append_dropWhile isDigitDot
            (r5.dropWhile isSpace)] at hm6
          rcases List.mem_append.mp hm6 with hm7 | hm7
          · exact not_paren_of_mem_take isDigitDot (by decide) hm7
          rw [heq5] at hm7
          exact absurd hm7 (by decide)
        next => exact absurd h (by simp)
      next => exact absurd h (by simp)
    next => exact absurd h (by simp)
  next heq2 =>
    exact absurd h (by simp)

/-- `takeWhile`/`dropWhile` over an append whose left part satisfies the
predicate and whose right part starts failing it. -/
theorem takeWhile_app (p : Char → Bool) : ∀ (l r : List Char),
    (∀ x ∈ l, p x = true) → (∀ x, r.head? = some x → p x = false) →
    (l ++ r).takeWhile p = l ∧ (l ++ r).dropWhile p = r
  | [], r, _, hr => by
    cases r with
    | nil => exact ⟨rfl, rfl⟩
    | cons c t =>
      have hc : p c = false := hr c rfl
      rw [List.nil_append, List.takeWhile_cons, List.dropWhile_cons]
      simp [hc]
  | c :: l, r, hl, hr => by
    have hc : p c = true := hl c (List.mem_cons_self c l)
    have hl2 : ∀ x ∈ l, p x = true := fun x hx => hl x (List.mem_cons_of_mem c hx)
    obtain ⟨h1, h2⟩ := takeWhile_app p l r hl2 hr
    rw [List.cons_append, List.takeWhile_cons, List.dropWhile_cons]
    simp [hc, h1, h2]

/-- The six concrete whitespace characters. -/
theorem space_elim (c : Char) (h : isSpace c = true) :
    c = ' ' ∨ c = '\t' ∨ c = '\n' ∨ c = '\r' ∨ c = '\x0b' ∨ c = '\x0c' := by
  simpa [isSpace, or_assoc] using h

/-- A digit-or-dot character is not whitespace. -/
theorem digitDot_not_space (c : Char) (h : isDigitDot c = true) :
    isSpace c = false := by
  by_contra hc
  rw [Bool.not_eq_false] at hc
  rcases space_elim c hc with rfl | rfl | rfl | rfl | rfl | rfl <;>
    exact absurd h (by decide)

/-- On the canonical tail the anchored tail pattern matches and captures
exactly the count and percent groups. -/
theorem matchTail_canonical (cnt pct : List Char)
    (hcnt : ∀ x ∈ cnt, isDigitComma x = true) (hcne : cnt ≠ [])
    (hpct : ∀ x ∈ pct, isDigitDot x = true) (hpne : pct ≠ []) :
    matchTail (canonicalTail cnt pct) = some (cnt, pct) := by
  obtain ⟨e1, e2⟩ := takeWhile_app isDigitComma cnt
    (' ' :: 's' :: 'a' :: 'm' :: 'p' :: 'l' :: 'e' :: 's' :: ',' :: ' ' ::
      (pct ++ '%' :: ')' :: [])) hcnt
    (fun x hx => by rw [← Option.some.inj hx]; decide)
  obtain ⟨e3, e4⟩ := takeWhile_app isDigitDot pct ('%' :: ')' :: []) hpct
    (fun x hx => by rw [← Option.some.inj hx]; decide)
  have e5 : List.takeWhile isSpace (pct ++ '%' :: ')' :: []) = [] := by
    cases pct with
    | nil => exact absurd rfl hpne
    | cons q qt =>
      rw [List.cons_append, List.takeWhile_cons]
      simp [digitDot_not_space q (hpct q (List.mem_cons_self q qt))]
  have e6 : List.dropWhile isSpace (pct ++ '%' :: ')' :: [])
      = pct ++ '%' :: ')' :: [] := by
    cases pct with
    | nil => exact absurd rfl hpne
    | cons q qt =>
      rw [List.cons_append, List.dropWhile_cons]
      simp [digitDot_not_space q (hpct q (List.mem_cons_self q qt))]
  unfold matchTail canonicalTail
  rw [List.takeWhile_cons, List.dropWhile_cons]
  simp only [show isSpace ' ' = true from by decide, if_true]
  rw [List.takeWhile_cons, List.dropWhile_cons]
  simp only [show isSpace '(' = false from by decide, Bool.false_eq_true, if_false]
  rw [if_neg (by simp)]
  rw [e1, e2]
  rw [if_neg hcne]
  rw [List.takeWhile_cons, List.dropWhile_cons]
  simp only [show isSpace ' ' = true from by decide, if_true]
  rw [List.takeWhile_cons, List.dropWhile_cons]
  simp only [show isSpace 's' = false from by decide, Bool.false_eq_true, if_false]
  rw [if_neg (by simp)]
  rw [List.takeWhile_cons, List.dropWhile_cons]
  simp only [show isSpace ' ' = true from by decide, if_true]
  rw [e5, e6]
  rw [if_neg (by simp)]
  rw [e3, e4]
  rw [if_neg hpne]
  rfl

/-- Prepending anything that ends in a non-whitespace character to a string
containing a parenthesis can never satisfy the anchored tail pattern. -/
theorem matchTail_app_none (e T : List Char) (he : e ≠ [])
    (hlast : ∀ x, e.getLast? = some x → isSpace x = false)
    (hpT : '(' ∈ T) :
    matchTail (e ++ T) = none := by
  cases hmt : matchTail (e ++ T) with
  | none => rfl
  | some v =>
    obtain ⟨dg, p⟩ := v
    obtain ⟨h0, rest, hdrop, hnp⟩ := matchTail_structure _ dg p hmt
    obtain ⟨x, hx⟩ := Option.isSome_iff_exists.mp (List.getLast?_isSome.mpr he)
    have hxe : x ∈ e := List.mem_of_mem_getLast? hx
    have hxs : isSpace x = false := hlast x hx
    have hsplit : (e ++ T).takeWhile isSpace ++ '(' :: rest = e ++ T := by
      rw [← hdrop]
      exact List.takeWhile_append_dropWhile isSpace (e ++ T)
    have hwall : ∀ y ∈ (e ++ T).takeWhile isSpace, isSpace y = true :=
      fun y hy => List.mem_takeWhile_imp hy
    rcases List.append_eq_append_iff.mp hsplit with ⟨a, hea, hrt⟩ | ⟨c2, hW, hT2⟩
    · cases a with
      | nil =>
        rw [List.append_nil] at hea
        rw [hea] at hxe
        rw [hwall x hxe] at hxs
        exact Bool.noConfusion hxs
      | cons c a2 =>
        rw [List.cons_append] at hrt
        injection hrt with hc hrest
        exact (hnp (hrest ▸ List.mem_append_right a2 hpT)).elim
    · have hxw : x ∈ (e ++ T).takeWhile isSpace := by
        rw [hW]
        exact List.mem_append_left c2 hxe
      rw [hwall x hxw] at hxs
      exact Bool.noConfusion hxs

/-- The lazy name scan on `d ++ T`: if no nonempty suffix of `d` starts a
tail match, `d` has no newline, and `T` itself matches, the split lands
exactly at the boundary. -/
theorem findSplit_app : ∀ (d pre T dg p : List Char),
    (∀ e : List Char, e ≠ [] → e <:+ d → matchTail (e ++ T) = none) →
    '\n' ∉ d →
    matchTail T = some (dg, p) →
    findSplit pre (d ++ T) = some (pre.reverse ++ d, dg, p)
  | [], pre, T, dg, p, _, _, hT => by
    rw [List.nil_append, List.append_nil]
    cases T with
    | nil =>
      rw [show matchTail [] = none from rfl] at hT
      exact absurd hT (by simp)
    | cons c rest =>
      unfold findSplit
      rw [hT]
  | c :: d, pre, T, dg, p, hfail, hnl, hT => by
    rw [List.cons_append]
    unfold findSplit
    have hfc : matchTail (c :: (d ++ T)) = none := by
      have := hfail (c :: d) (by simp) (List.suffix_refl _)
      rw [List.cons_append] at this
      exact this
    rw [hfc]
    have hcn : c ≠ '\n' := fun hc => hnl (hc ▸ List.mem_cons_self c d)
    rw [if_neg hcn]
    have hrec := findSplit_app d (c :: pre) T dg p
      (fun e he hsuf => hfail e he (hsuf.trans (List.suffix_cons c d)))
      (fun hm => hnl (List.mem_cons_of_mem c hm)) hT
    rw [hrec]
    simp

/-- The head of a `dropWhile` result fails the predicate. -/
theorem head_dropWhile_false (p : Char → Bool) : ∀ (l : List Char) (x : Char),
    (l.dropWhile p).head? = some x → p x = false
  | [], x, h => by simp at h
  | c :: t, x, h => by
    by_cases hc : p c = true
    · rw [List.dropWhile_cons, if_pos hc] at h
      exact head_dropWhile_false p t x h
    · rw [List.dropWhile_cons, if_neg hc] at h
      have hcx : c = x := Option.some.inj h
      rw [← hcx]
      exact Bool.not_eq_true _ ▸ hc

/-- A canonical title whose name starts with a non-whitespace character is
unchanged by stripping. -/
theorem pyStrip_canonical (name cnt pct : List Char) (hn : name ≠ [])
    (hh : ∀ x, name.head? = some x → isSpace x = false) :
    pyStrip (canonicalTitle name cnt pct) = canonicalTitle name cnt pct := by
  have hhead : ∀ x, (canonicalTitle name cnt pct).head? = some x →
      isSpace x = false := by
    intro x hx
    cases name with
    | nil => exact absurd rfl hn
    | cons c nt =>
      rw [show canonicalTitle (c :: nt) cnt pct
          = c :: (nt ++ canonicalTail cnt pct) from List.cons_append c nt _] at hx
      rw [List.head?_cons] at hx
      exact hh x (by rw [List.head?_cons, Option.some.inj hx])
  have hsuf : ['%', ')'] <:+ canonicalTitle name cnt pct := by
    refine ⟨name ++ ' ' :: '(' :: (cnt ++ ' ' :: 's' :: 'a' :: 'm' :: 'p' ::
      'l' :: 'e' :: 's' :: ',' :: ' ' :: pct), ?_⟩
    simp [canonicalTitle, canonicalTail]
  have hlastCT : ∀ x, (canonicalTitle name cnt pct).getLast? = some x →
      isSpace x = false := by
    intro x hx
    rw [← getLast?_of_suffix hsuf (by simp)] at hx
    rw [show (['%', ')'] : List Char).getLast? = some ')' from rfl] at hx
    rw [← Option.some.inj hx]
    decide
  show (((canonicalTitle name cnt pct).dropWhile isSpace).reverse.dropWhile
      isSpace).reverse = canonicalTitle name cnt pct
  rw [dropWhile_eq_self_of_head _ hhead,
    dropWhile_eq_self_of_head _ (fun x hx => hlastCT x (by
      rw [← List.head?_reverse]
      exact hx)),
    List.reverse_reverse]

/-- Folding the digit step from an accumulator shifts it by a power of ten. -/
theorem digitsToNat_foldl : ∀ (b : List Char) (A : Nat),
    List.foldl (fun a c => 10 * a + (c.toNat - '0'.toNat)) A b
      = A * 10 ^ b.length + digitsToNat b
  | [], A => by simp [digitsToNat]
  | c :: t, A => by
    rw [List.foldl_cons, digitsToNat_foldl t (10 * A + (c.toNat - '0'.toNat)),
      show digitsToNat (c :: t)
        = List.foldl (fun a c => 10 * a + (c.toNat - '0'.toNat))
            (c.toNat - '0'.toNat) t from by
          simp [digitsToNat],
      digitsToNat_foldl t (c.toNat - '0'.toNat), List.length_cons]
    ring

/-- The digit value of an append. -/
theorem digitsToNat_append (a b : List Char) :
    digitsToNat (a ++ b) = digitsToNat a * 10 ^ b.length + digitsToNat b := by
  unfold digitsToNat
  rw [List.foldl_append]
  exact digitsToNat_foldl b _

/-- On a digit-dot group with at most one dot and at least one digit, the
Python float conversion succeeds and yields the exact decimal value. -/
theorem pyDecimal_eq_decimalValue (ds : List Char)
    (hall : ∀ x ∈ ds, isDigitDot x = true)
    (hdig : ∃ x ∈ ds, x.isDigit = true)
    (hdot : (ds.filter (fun c => c = '.')).length ≤ 1) :
    pyDecimal ds = some (decimalValue ds) := by
  obtain ⟨z, hz, hzd⟩ := hdig
  have hne : ds ≠ [] := List.ne_nil_of_mem hz
  unfold pyDecimal
  rw [if_neg (fun hc => hc (List.all_eq_true.mpr hall))]
  have hL : (ds.filter (fun c => c = '.')).length = 0 ∨
      (ds.filter (fun c => c = '.')).length = 1 := by omega
  rcases hL with hL | hL
  · rw [hL]
    have hfe : ds.filter (fun c => c = '.') = [] := List.length_eq_zero.mp hL
    have hnodot : ∀ x ∈ ds, ¬(x = '.') := by
      intro x hx hx2
      have hm : x ∈ ds.filter (fun c => c = '.') :=
        List.mem_filter.mpr ⟨hx, by simp [hx2]⟩
      rw [hfe] at hm
      exact absurd hm (List.not_mem_nil x)
    have hfilter : ds.filter (fun c => c ≠ '.') = ds :=
      List.filter_eq_self.mpr (fun x hx => by simpa using hnodot x hx)
    have hdrop : ds.dropWhile (fun c => c ≠ '.') = [] := by
      rw [List.dropWhile_eq_nil_iff]
      intro x hx
      simpa using hnodot x hx
    rw [if_neg hne]
    unfold decimalValue
    rw [hfilter, hdrop]
    norm_num
  · rw [hL]
    have hsplit : ds.takeWhile (fun c => c ≠ '.') ++
        ds.dropWhile (fun c => c ≠ '.') = ds :=
      List.takeWhile_append_dropWhile _ ds
    have hrne : ds.dropWhile (fun c => c ≠ '.') ≠ [] := by
      intro hnil
      have hnod : ∀ x ∈ ds, (fun c => decide (c ≠ '.')) x = true :=
        List.dropWhile_eq_nil_iff.mp hnil
      have : ds.filter (fun c => c = '.') = [] := by
        rw [List.filter_eq_nil_iff]
        intro x hx
        have := hnod x hx
        simp at this
        simp [this]
      rw [this] at hL
      exact absurd hL (by simp)
    cases hr : ds.dropWhile (fun c => c ≠ '.') with
    | nil => exact absurd hr hrne
    | cons h0 b =>
      have hh0 : h0 = '.' := by
        have := head_dropWhile_false (fun c => decide (c ≠ '.')) ds h0
          (by rw [hr]; rfl)
        simpa using this
      subst hh0
      rw [hr] at hsplit
      have hta : ∀ x ∈ ds.takeWhile (fun c => c ≠ '.'), ¬(x = '.') := by
        intro x hx
        have := List.mem_takeWhile_imp hx
        simpa using this
      have hbnd : ∀ x ∈ b, ¬(x = '.') := by
        have h1 : ds.filter (fun c => c = '.')
            = (ds.takeWhile (fun c => c ≠ '.')).filter (fun c => c = '.')
              ++ ('.' :: b).filter (fun c => c = '.') := by
          rw [← List.filter_append, hsplit]
        have h2 : (ds.takeWhile (fun c => c ≠ '.')).filter (fun c => c = '.')
            = [] := by
          rw [List.filter_eq_nil_iff]
          intro x hx
          simpa using hta x hx
        rw [h2, List.nil_append, List.filter_cons] at h1
        norm_num at h1
        rw [h1] at hL
        rw [List.length_cons] at hL
        have := List.length_eq_zero.mp (by omega : (b.filter (fun c => c = '.')).length = 0)
        intro x hx hx2
        have hm : x ∈ b.filter (fun c => c = '.') :=
          List.mem_filter.mpr ⟨hx, by simp [hx2]⟩
        rw [this] at hm
        exact absurd hm (List.not_mem_nil x)
      have hcond : ¬(ds.takeWhile (fun c => c ≠ '.') = [] ∧ b = []) := by
        rintro ⟨ha, hb⟩
        rw [← hsplit, ha, hb] at hz
        simp only [List.nil_append, List.mem_singleton] at hz
        subst hz
        exact absurd hzd (by decide)
      dsimp only [List.tail_cons]
      rw [if_neg hcond]
      have hfeq : ds.filter (fun c => c ≠ '.')
          = ds.takeWhile (fun c => c ≠ '.') ++ b := by
        conv_lhs => rw [← hsplit]
        rw [List.filter_append]
        congr 1
        · exact List.filter_eq_self.mpr (fun x hx => by simpa using hta x hx)
        · rw [List.filter_cons]
          simp only [show decide (('.' : Char) ≠ '.') = false from by decide,
            Bool.false_eq_true, if_false]
          exact List.filter_eq_self.mpr (fun x hx => by simpa using hbnd x hx)
      unfold decimalValue
      rw [hfeq, hr, List.tail_cons, digitsToNat_append]
      congr 1
      push_cast
      ring

/-- Removing the comma separators from a digit-comma group with at least
one digit leaves a digits-only string the integer conversion accepts. -/
theorem pyInt_canonical (cnt : List Char)
    (hcnt : ∀ x ∈ cnt, isDigitComma x = true)
    (hd : ∃ x ∈ cnt, x.isDigit = true) :
    pyIntOfDigits (cnt.filter (fun x => x ≠ ','))
      = some (digitsToNat (cnt.filter (fun x => x ≠ ','))) := by
  obtain ⟨z, hz, hzd⟩ := hd
  unfold pyIntOfDigits
  rw [if_neg]
  push_neg
  constructor
  · have hzne : z ≠ ',' := by
      intro hc
      rw [hc] at hzd
      exact absurd hzd (by decide)
    exact List.ne_nil_of_mem (List.mem_filter.mpr ⟨hz, by simpa using hzne⟩)
  · rw [List.all_eq_true]
    intro y hy
    obtain ⟨hy1, hy2⟩ := List.mem_filter.mp hy
    have := hcnt y hy1
    rw [isDigitComma] at this
    rcases (by simpa using this : y.isDigit = true ∨ y = ',') with hdig | hcm
    · exact hdig
    · rw [hcm] at hy2
      simp at hy2

/-- C6: for a well-formed annotation whose name is nonempty, newline-free
and neither starts nor ends in whitespace, `parse_title` recovers the
name, the comma-stripped count and the exact percent value; and every
element of the extraction output arises from a successfully parsed title,
so malformed annotations never appear in it. -/
theorem C6_title_roundtrip (name cnt pct : List Char)
    (hn : name ≠ []) (hnl : '\n' ∉ name)
    (hh : ∀ x, name.head? = some x → isSpace x = false)
    (hl : ∀ x, name.getLast? = some x → isSpace x = false)
    (hcnt : ∀ x ∈ cnt, isDigitComma x = true)
    (hcd : ∃ x ∈ cnt, x.isDigit = true)
    (hpct : ∀ x ∈ pct, isDigitDot x = true)
    (hpd : ∃ x ∈ pct, x.isDigit = true)
    (hdot : (pct.filter (fun c => c = '.')).length ≤ 1) :
    parse_title (canonicalTitle name cnt pct)
      = some (name, digitsToNat (cnt.filter (fun x => x ≠ ',')),
          decimalValue pct) ∧
    ∀ (content : List Char) (e : List Char × Nat × Rat),
      e ∈ extract_titles_from_svg content →
      ∃ t, t ∈ findTitles content ∧ parse_title (unescapeHtml t) = some e := by
  constructor
  · have hcne : cnt ≠ [] := by
      obtain ⟨z, hz, _⟩ := hcd
      exact List.ne_nil_of_mem hz
    have hpne : pct ≠ [] := by
      obtain ⟨z, hz, _⟩ := hpd
      exact List.ne_nil_of_mem hz
    obtain ⟨c, nt, rfl⟩ : ∃ c nt, name = c :: nt := by
      cases name with
      | nil => exact absurd rfl hn
      | cons c nt => exact ⟨c, nt, rfl⟩
    have hstrip := pyStrip_canonical (c :: nt) cnt pct hn hh
    have hT : '(' ∈ canonicalTail cnt pct := by
      simp [canonicalTail]
    have hnl2 : '\n' ∉ nt := fun hm => hnl (List.mem_cons_of_mem c hm)
    have hfail : ∀ e : List Char, e ≠ [] → e <:+ nt →
        matchTail (e ++ canonicalTail cnt pct) = none := by
      intro e he hsuf
      apply matchTail_app_none e _ he _ hT
      intro x hx
      have hnt_ne : nt ≠ [] := by
        intro h0
        rw [h0] at hsuf
        exact he (List.suffix_nil.mp hsuf)
      rw [getLast?_of_suffix hsuf he] at hx
      have hx2 : (c :: nt).getLast? = some x := by
        rw [← getLast?_of_suffix (List.suffix_cons c nt) hnt_ne]
        exact hx
      exact hl x hx2
    have hfs := findSplit_app nt [c] (canonicalTail cnt pct) cnt pct
      hfail hnl2 (matchTail_canonical cnt pct hcnt hcne hpct hpne)
    have hc_ns : isSpace c = false := hh c rfl
    have hcn : ¬(c = '\n') := by
      intro hc
      rw [hc] at hc_ns
      exact absurd hc_ns (by decide)
    unfold parse_title
    rw [hstrip]
    rw [show canonicalTitle (c :: nt) cnt pct
        = c :: (nt ++ canonicalTail cnt pct) from List.cons_append c nt _]
    dsimp only []
    rw [if_neg hcn]
    rw [hfs]
    dsimp only []
    rw [pyInt_canonical cnt hcnt hcd, pyDecimal_eq_decimalValue pct hpct hpd hdot]
    simp
  · intro content e he
    unfold extract_titles_from_svg at he
    obtain ⟨t, ht, hpt⟩ := List.mem_filterMap.mp he
    exact ⟨t, ht, hpt⟩

/-- C6 counterexample: the annotation canonically formed from the
two-character name consisting of the letter a and a trailing space is of
the well-formed shape, yet parsing recovers the one-character name
without the space, so exact name recovery fails. -/
theorem C6_trailing_space_counterexample :
    parse_title (canonicalTitle (chars ("a ")) (chars ("5")) (chars ("1")))
      = some (chars ("a"), 5, mkRat 1 1) ∧ chars ("a") ≠ chars ("a ") := by
  decide

/-- Concrete instance of the C6 round-trip theorem. -/
theorem C6_title_roundtrip_witness :
    parse_title (canonicalTitle (chars ("f")) (chars ("10")) (chars ("2.5")))
      = some (chars ("f"),
          digitsToNat ((chars ("10")).filter (fun x => x ≠ ',')),
          decimalValue (chars ("2.5"))) ∧
    ∀ (content : List Char) (e : List Char × Nat × Rat),
      e ∈ extract_titles_from_svg content →
      ∃ t, t ∈ findTitles content ∧ parse_title (unescapeHtml t) = some e :=
  C6_title_roundtrip (chars ("f")) (chars ("10")) (chars ("2.5"))
    (by decide) (by decide)
    (by intro x hx; injection hx with h; subst h; decide)
    (by intro x hx; injection hx with h; subst h; decide)
    (by decide) (by decide) (by decide) (by decide) (by decide)
